import Mathlib

/-!
# Gin: `multiThreadedFor` and `PatchBrowser::editPreset`

A shallow embedding of

* `modules/gin/utilities/threading.h` (`multiThreadedFor`), and
* `modules/gin_plugin/components/gin_patchbrowser.cpp`
  (`PatchBrowser::refresh`, `PatchBrowser::editPreset`),

followed by theorems about them.

Conventions of the embedding.

* The template parameter `T` of `multiThreadedFor` is instantiated with `int`.
  Its values are modelled by `Int`, and the one operation of the source on
  `T` that changes a value, `i += interval`, wraps around at 32 bits
  (`wrapInt`): signed overflow is undefined in C++ and wraps on the usual
  targets.
* The `int` variables `num`, `each`, `i`, `j` of the dispatch part are
  modelled by `Int` without wrapping: with `each` the chunk size computed from
  `todo.size()` and `num`, the products `i * each` and `(i + 1) * each` are at
  most about `todo.size() + num`.
* `float` is IEEE-754 binary32; a finite float is modelled by the rational it
  denotes and every float operation by the exact result rounded to nearest,
  ties to even, on a 24 bit significand (`roundF32`).
* The concurrent part (the units handed to `callInBackground` and the caller's
  wait loop) is a step function on an explicit state, driven by a schedule
  that names which thread moves next.
-/

namespace Gin

/-! ## binary32 arithmetic used by `each` -/

/-- Nearest integer to `x`, a tie going to the even neighbour. -/
def roundHalfEven (x : ℚ) : Int :=
  if x - ⌊x⌋ < 1 / 2 then ⌊x⌋
  else if 1 / 2 < x - ⌊x⌋ then ⌊x⌋ + 1
  else if ⌊x⌋ % 2 = 0 then ⌊x⌋ else ⌊x⌋ + 1

/-- The binary32 value nearest to `x` (round to nearest, ties to even), for `x`
in the normal range `2^-126 ≤ |x| < 2^128`: with `2^e ≤ |x| < 2^(e+1)` the
significand `x / 2^(e-23)` is rounded to an integer.  Every quotient of two
non-zero 32 bit integers lies in that range. -/
def roundF32 (x : ℚ) : ℚ :=
  if x = 0 then 0
  else (roundHalfEven (x * (2 : ℚ) ^ (23 - Int.log 2 |x|)) : ℚ) * (2 : ℚ) ^ (Int.log 2 |x| - 23)

/-- The statement `int each = std::ceil (todo.size() / float (num));`:
`num` is converted to `float`, `todo.size()` is converted to `float` by the
usual arithmetic conversions, the quotient is a `float` division,
`std::ceil` is exact and the result is converted back to `int`.
For `num = 0` the C++ quotient is infinite or NaN and its conversion to `int`
is undefined; the value given here for `num = 0` is not used by any theorem
(statements about `num ≤ 0` quantify over every value of `each`). -/
def eachOf (size : Nat) (num : Int) : Int :=
  ⌈roundF32 (roundF32 (size : ℚ) / roundF32 (num : ℚ))⌉

/-! ## The materialisation loop -/

/-- The value of a 32 bit two's complement `int` holding `x`: `x` reduced
modulo `2^32` into `[-2^31, 2^31)`. -/
def wrapInt (x : Int) : Int :=
  (x + 2147483648) % 4294967296 - 2147483648

/-- The loop `for (T i = start; i < end; i += interval) todo.add (i);` for
`T = int`, run for at most `fuel` tests of the loop condition; `i += interval`
wraps around at 32 bits.  `none` means that the loop is still running when the
fuel is spent. -/
def todoLoop : Nat → Int → Int → Int → List Int → Option (List Int)
  | 0, _, _, _, _ => none
  | fuel + 1, i, end_, interval, todo =>
      if i < end_ then todoLoop fuel (wrapInt (i + interval)) end_ interval (todo ++ [i])
      else some todo

/-- The loop that fills `todo`, entered with `i = start` and `todo` empty. -/
def materialise (fuel : Nat) (start end_ interval : Int) : Option (List Int) :=
  todoLoop fuel start end_ interval []

/-! ## The units of work and the caller -/

/-- The values that are fixed once the dispatch loop starts: the array `todo`,
the chunk size `each` and the worker count `num`. -/
structure Config where
  todo : List Int
  each : Int
  num : Int
  deriving DecidableEq, Repr

/-- What the sequential prefix of `multiThreadedFor` produces. -/
inductive Setup where
  /-- `(end - start) / interval` is evaluated with `interval = 0`; for an
  integer `T` this is undefined and nothing after it is modelled. -/
  | divisionByZero
  /-- The materialisation loop is still running after `fuel` tests. -/
  | stillLooping
  /-- The prefix finished with these values of `todo`, `each` and `num`. -/
  | ready (c : Config)
  deriving DecidableEq, Repr

/-- Lines 18 to 29 of `threading.h`: read the CPU count `num`, compute the
capacity hint `(end - start) / interval`, fill `todo`, compute `each`. -/
def setup (fuel : Nat) (num start end_ interval : Int) : Setup :=
  if interval = 0 then Setup.divisionByZero
  else
    match materialise fuel start end_ interval with
    | none => Setup.stillLooping
    | some todo => Setup.ready ⟨todo, eachOf todo.length num, num⟩

/-- JUCE `Array::operator[]`: the element at `j`, or a default-constructed
`T` (zero) when `j` is out of range. -/
def arrayGet (todo : List Int) (j : Int) : Int :=
  if 0 ≤ j then todo.getD j.toNat 0 else 0

/-- Where one unit of work handed to `callInBackground` stands. -/
inductive UnitPc where
  /-- Handed to the dispatcher, body not begun. -/
  | notStarted
  /-- In the `for` loop with this `j`, about to test
  `j < jmin (todo.size(), (i + 1) * each)`. -/
  | running (j : Int)
  /-- The loop test failed, about to execute `threadsRunning -= 1`. -/
  | loopDone
  /-- The decrement is done, about to execute `wait.signal()`. -/
  | decremented
  /-- The body has returned. -/
  | finished
  deriving DecidableEq, Repr

/-- Where the calling thread stands. -/
inductive CallerPc where
  /-- About to test `i < num`. -/
  | forTest
  /-- `callInBackground` has returned, about to execute `i++`. -/
  | increment
  /-- About to test `threadsRunning.get() > 0`. -/
  | whileTest
  /-- Inside `wait.wait()`. -/
  | inWait
  /-- `multiThreadedFor` has returned. -/
  | returned
  deriving DecidableEq, Repr

/-- The shared state: the dispatch loop variable `i` (captured by reference
by every unit), the caller's position, the units dispatched so far in
dispatch order, the atomic counter `threadsRunning`, the flag of the
`WaitableEvent` and the log of callback invocations `(unit, argument)`. -/
structure State where
  i : Int
  pc : CallerPc
  units : List UnitPc
  threadsRunning : Int
  signalled : Bool
  log : List (Nat × Int)
  deriving DecidableEq, Repr

/-- The state on entry to the dispatch loop: `i = 0`, no unit dispatched,
`threadsRunning (num)`, the event not signalled. -/
def initial (c : Config) : State :=
  { i := 0, pc := CallerPc.forTest, units := [], threadsRunning := c.num,
    signalled := false, log := [] }

/-- One step of the calling thread; `none` when it cannot move (blocked in
`wait.wait()` with the event unset, or returned). -/
def callerStep (c : Config) (s : State) : Option State :=
  match s.pc with
  | CallerPc.forTest =>
      if s.i < c.num then
        some { s with units := s.units ++ [UnitPc.notStarted], pc := CallerPc.increment }
      else some { s with pc := CallerPc.whileTest }
  | CallerPc.increment => some { s with i := s.i + 1, pc := CallerPc.forTest }
  | CallerPc.whileTest =>
      if s.threadsRunning > 0 then some { s with pc := CallerPc.inWait }
      else some { s with pc := CallerPc.returned }
  | CallerPc.inWait =>
      if s.signalled then some { s with signalled := false, pc := CallerPc.whileTest }
      else none
  | CallerPc.returned => none

/-- One step of unit `k`; `none` when there is no such unit or it has
finished.  The lambda captures by reference (`[&]`), so `i` is read from the
shared state each time the body mentions it. -/
def workerStep (c : Config) (k : Nat) (s : State) : Option State :=
  match s.units.get? k with
  | none => none
  | some UnitPc.notStarted =>
      some { s with units := s.units.set k (UnitPc.running (s.i * c.each)) }
  | some (UnitPc.running j) =>
      if j < min (c.todo.length : Int) ((s.i + 1) * c.each) then
        some { s with log := s.log ++ [(k, arrayGet c.todo j)],
                      units := s.units.set k (UnitPc.running (j + 1)) }
      else some { s with units := s.units.set k UnitPc.loopDone }
  | some UnitPc.loopDone =>
      some { s with threadsRunning := s.threadsRunning - 1,
                    units := s.units.set k UnitPc.decremented }
  | some UnitPc.decremented =>
      some { s with signalled := true, units := s.units.set k UnitPc.finished }
  | some UnitPc.finished => none

/-- Which thread moves next. -/
inductive Action where
  | caller
  | worker (k : Nat)
  deriving DecidableEq, Repr

/-- One step of the system. -/
def step (c : Config) (a : Action) (s : State) : Option State :=
  match a with
  | Action.caller => callerStep c s
  | Action.worker k => workerStep c k s

/-- Run a schedule from a state; `none` when the schedule asks a thread to
move that cannot. -/
def runFrom (c : Config) : List Action → State → Option State
  | [], s => some s
  | a :: rest, s =>
      match step c a s with
      | none => none
      | some t => runFrom c rest t

/-- Run a schedule from the initial state. -/
def run (c : Config) (schedule : List Action) : Option State :=
  runFrom c schedule (initial c)

/-- The call `multiThreadedFor (start, end, interval, callback)` on a host that
reports `num` CPUs: the sequential prefix, with `fuel` bounding the
materialisation loop, followed by the caller and the dispatched units moving
in the order given by `schedule`.  The result is the state reached, the
callback being represented by the log of its invocations; it is `none` when
the prefix does not finish or the schedule asks a thread to move that
cannot. -/
def multiThreadedFor (fuel : Nat) (num start end_ interval : Int)
    (schedule : List Action) : Option State :=
  match setup fuel num start end_ interval with
  | Setup.ready c => run c schedule
  | _ => none

/-- A unit has completed once it has executed `threadsRunning -= 1`. -/
def UnitPc.completed : UnitPc → Bool
  | UnitPc.decremented => true
  | UnitPc.finished => true
  | _ => false

/-- The number of completed units. -/
def completedCount (units : List UnitPc) : Nat :=
  units.countP UnitPc.completed

/-! ## Slices -/

/-- The callback arguments of the loop
`for (int j = i * each; j < jmin (todo.size(), (i + 1) * each); j++)
callback (todo[j]);` when every read of `i` returns the same value. -/
def slice (c : Config) (i : Int) : List Int :=
  (List.range (min (c.todo.length : Int) ((i + 1) * c.each) - i * c.each).toNat).map
    fun (d : Nat) => arrayGet c.todo (i * c.each + (d : Int))

/-- The slices of the units `0, ..., num - 1` in dispatch order. -/
def slices (c : Config) : List (List Int) :=
  (List.range c.num.toNat).map fun (k : Nat) => slice c k

/-- The schedule in which the dispatcher runs each unit to completion before
`callInBackground` returns. -/
def syncSchedule (c : Config) : List Action :=
  ((List.range c.num.toNat).map fun (k : Nat) =>
      Action.caller :: List.replicate ((slice c k).length + 4) (Action.worker k)
        ++ [Action.caller]).flatten
    ++ [Action.caller, Action.caller]

/-- The caller has left the dispatch loop. -/
def CallerPc.pastLoop : CallerPc → Bool
  | CallerPc.whileTest => true
  | CallerPc.inWait => true
  | CallerPc.returned => true
  | _ => false

/-- An upper bound on the number of steps of a unit that has not started:
the start, at most `todo.size() + num * |each|` loop iterations, the failing
loop test, the decrement and the signal (weighted as in `unitWeight`). -/
def unitBudget (c : Config) : Nat :=
  6 + c.todo.length + c.num.toNat * c.each.natAbs

/-- An upper bound on what a unit still contributes to the length of a run;
the signal counts for 3 because it re-arms the caller's wait. -/
def unitWeight (c : Config) : UnitPc → Nat
  | UnitPc.notStarted => unitBudget c
  | UnitPc.running j => 5 + ((c.todo.length : Int) - j).toNat
  | UnitPc.loopDone => 4
  | UnitPc.decremented => 3
  | UnitPc.finished => 0

/-- An upper bound on what the caller still contributes to the length of a
run, the units it has yet to dispatch included. -/
def callerWeight (c : Config) (s : State) : Nat :=
  match s.pc with
  | CallerPc.forTest => 3 + (c.num - s.i).toNat * (unitBudget c + 2)
  | CallerPc.increment => 4 + ((c.num - s.i).toNat - 1) * (unitBudget c + 2)
  | CallerPc.whileTest => 2
  | CallerPc.inWait => 1
  | CallerPc.returned => 0

/-- An upper bound on the number of steps that can still be taken from `s`:
every step of the caller or of a unit lowers it. -/
def stepsLeft (c : Config) (s : State) : Nat :=
  callerWeight c s + (if s.signalled then 2 else 0) + (s.units.map (unitWeight c)).sum

/-- The invariant of the caller/worker system. -/
structure Inv (c : Config) (s : State) : Prop where
  counter : s.threadsRunning = c.num - completedCount s.units
  i_nonneg : 0 ≤ s.i
  forTest : s.pc = CallerPc.forTest →
    (s.units.length : Int) = s.i ∧ s.units.length ≤ c.num.toNat
  increment : s.pc = CallerPc.increment → (s.units.length : Int) = s.i + 1 ∧ s.i < c.num
  past : s.pc.pastLoop = true → s.units.length = c.num.toNat
  returned : s.pc = CallerPc.returned → ∀ u ∈ s.units, u.completed = true
  logUnits : ∀ e ∈ s.log, e.1 < s.units.length
  running : ∀ j, UnitPc.running j ∈ s.units → 0 ≤ j ∨ (s.i + 1) * c.each ≤ j
  emptyTodo : c.todo = [] → s.log = []
  i_le : s.i ≤ c.num.toNat
  wake : s.pc = CallerPc.inWait → s.signalled = false →
    ∃ u ∈ s.units, u ≠ UnitPc.finished

/-- The log of the synchronous run once the first `n` units have run: the
slices of the units `0, ..., n - 1`, each value tagged with its unit. -/
def taggedSlices (c : Config) (n : Nat) : List (Nat × Int) :=
  ((List.range n).map fun (k : Nat) => (slice c k).map fun v => (k, v)).flatten

/-- The state of the synchronous run once the first `n` units have run. -/
def syncState (c : Config) (n : Nat) : State :=
  { i := n, pc := CallerPc.forTest, units := List.replicate n UnitPc.finished,
    threadsRunning := c.num - n, signalled := decide (0 < n), log := taggedSlices c n }

/-- The ascending index sequence `start, start + step, start + 2 * step, ...`
of all values below `end`, as the specification words it; meant for
`0 < step`. -/
def indexSeq (start end_ step : Int) : List Int :=
  (List.range ((end_ - start + step - 1) / step).toNat).map
    fun (k : Nat) => start + (k : Int) * step

/-! ## PatchBrowser -/

/-- The fields of `gin::Program` that the browser reads and writes. -/
structure Program where
  name : String
  author : String
  tags : List String
  deriving DecidableEq, Repr

/-- The JUCE library functions called by `refresh` and `editPreset`; they are
not part of the repository and are taken as parameters. -/
structure Juce where
  /-- `StringArray::sort (true)`. -/
  sortIgnoreCase : List String → List String
  /-- `File::createLegalFileName`. -/
  createLegalFileName : String → String
  /-- `StringArray::fromTokens (s, " ", "")`. -/
  fromTokens : String → List String

/-- The members of `PatchBrowser` used by `refresh` and `editPreset`;
`programs` stands for `proc.getPrograms()`. -/
structure PatchBrowser where
  programs : List Program
  selectedAuthors : List String
  selectedTags : List String
  currentAuthors : List String
  currentTags : List String
  currentPresets : List String
  deriving DecidableEq, Repr

/-- What the user leaves in the "Edit preset:" dialog: the button pressed
(`1` for OK, `0` for Cancel) and the three text fields. -/
structure Dialog where
  ret : Int
  name : String
  author : String
  tags : String
  deriving DecidableEq, Repr

/-- JUCE `StringArray::addIfNotAlreadyThere`. -/
def addIfNotAlreadyThere (l : List String) (s : String) : List String :=
  if s ∈ l then l else l ++ [s]

/-- JUCE `StringArray::operator[]`: the string at `row`, or the empty string
when `row` is out of range. -/
def stringAt (l : List String) (row : Int) : String :=
  if 0 ≤ row then l.getD row.toNat "" else ""

/-- Modelled from the spec: `Processor::getProgram (name)` is declared outside
the given sources; as `editPreset` uses it, it returns the first program with
that name, or null when there is none. -/
def getProgram (programs : List Program) (name : String) : Option Program :=
  programs.find? fun p => p.name == name

/-- Modelled from the spec: `Processor::hasProgram (name)` is declared outside
the given sources; it tells whether a program with that name exists. -/
def hasProgram (programs : List Program) (name : String) : Bool :=
  programs.any fun p => p.name == name

/-- The body of the loop `for (auto program : proc.getPrograms())` of
`PatchBrowser::refresh`, acting on `(currentAuthors, currentTags,
currentPresets)`. -/
def refreshStep (selectedAuthors selectedTags : List String)
    (acc : List String × List String × List String) (program : Program) :
    List String × List String × List String :=
  let authors :=
    if program.author ≠ "" then addIfNotAlreadyThere acc.1 program.author else acc.1
  let tags :=
    program.tags.foldl (fun ts t => if t ≠ "" then addIfNotAlreadyThere ts t else ts) acc.2.1
  let presets :=
    if program.name = "Default" then acc.2.2
    else if selectedAuthors ≠ [] ∧ program.author ∉ selectedAuthors then acc.2.2
    else if selectedTags ≠ [] ∧ ¬ (program.tags.any fun t => t ∈ selectedTags) then acc.2.2
    else addIfNotAlreadyThere acc.2.2 program.name
  (authors, tags, presets)

/-- `PatchBrowser::refresh`: rebuild the three lists from the programs and the
selection, then sort them. -/
def refresh (J : Juce) (b : PatchBrowser) : PatchBrowser :=
  let r := b.programs.foldl (refreshStep b.selectedAuthors b.selectedTags) ([], [], [])
  { b with currentAuthors := J.sortIgnoreCase r.1,
           currentTags := J.sortIgnoreCase r.2.1,
           currentPresets := J.sortIgnoreCase r.2.2 }

/-- `PatchBrowser::editPreset (row)` followed by the dialog callback, on the
in-memory program list (the files removed by `deleteFromDir` and written by
`saveToDir` are those of the same object `programs[row]` and are not
modelled).  The result is `none` when `programs[row]` is null and is
dereferenced. -/
def editPreset (J : Juce) (b : PatchBrowser) (row : Int) (d : Dialog) :
    Option (List Program) :=
  match getProgram b.programs (stringAt b.currentPresets row) with
  | none => some b.programs
  | some _ =>
      if d.ret = 1 then
        let txt := J.createLegalFileName d.name
        let aut := J.createLegalFileName d.author
        let tag := J.createLegalFileName d.tags
        if hasProgram b.programs txt then some b.programs
        else if txt ≠ "" then
          if 0 ≤ row then
            match b.programs.get? row.toNat with
            | none => none
            | some program =>
                some (b.programs.set row.toNat
                  { program with name := txt, tags := J.fromTokens tag, author := aut })
          else none
        else some b.programs
      else some b.programs

/-- A browser over the programs `Default` and `A` with nothing selected. -/
def twoPrograms : PatchBrowser :=
  { programs := [⟨"Default", "", []⟩, ⟨"A", "", []⟩],
    selectedAuthors := [], selectedTags := [],
    currentAuthors := [], currentTags := [], currentPresets := [] }

/-! ## Theorems -/

theorem completedCount_append_notStarted (units : List UnitPc) :
    completedCount (units ++ [UnitPc.notStarted]) = completedCount units := by
  simp [completedCount, List.countP_append, UnitPc.completed]

theorem completedCount_le_length (units : List UnitPc) :
    completedCount units ≤ units.length :=
  List.countP_le_length _

theorem completedCount_set (units : List UnitPc) (k : Nat) (old new : UnitPc)
    (h : units.get? k = some old) :
    completedCount (units.set k new) + (if old.completed then 1 else 0)
      = completedCount units + (if new.completed then 1 else 0) := by
  induction units generalizing k with
  | nil => simp at h
  | cons u rest ih =>
    cases k with
    | zero =>
      simp only [List.get?_cons_zero, Option.some.injEq] at h
      subst h
      simp only [List.set_cons_zero, completedCount, List.countP_cons]
      omega
    | succ k =>
      simp only [List.get?_cons_succ] at h
      have := ih k h
      simp only [List.set_cons_succ, completedCount, List.countP_cons] at this ⊢
      omega

theorem mul_each_mono (each a j : Int) (ha : 0 ≤ a)
    (h : 0 ≤ j ∨ (a + 1) * each ≤ j) : 0 ≤ j ∨ (a + 1 + 1) * each ≤ j := by
  rcases h with h | h
  · exact Or.inl h
  · rcases le_or_lt 0 each with he | he
    · left
      have : 0 ≤ (a + 1) * each := mul_nonneg (by omega) he
      omega
    · right
      have : (a + 1 + 1) * each ≤ (a + 1) * each :=
        mul_le_mul_of_nonpos_right (by omega) he.le
      omega

theorem inv_initial (c : Config) : Inv c (initial c) := by
  constructor <;> simp [initial, completedCount, CallerPc.pastLoop]

theorem inv_callerStep (c : Config) (s t : State) (hs : Inv c s)
    (h : callerStep c s = some t) : Inv c t := by
  obtain ⟨h1, h0, h2, h3, h4, h5, h6, h7, h8, h9, h10⟩ := hs
  have hle := completedCount_le_length s.units
  unfold callerStep at h
  split at h
  · rename_i hpc
    have := h2 hpc
    split at h <;> simp only [Option.some.injEq] at h <;> subst h
    · refine ⟨?_, h0, ?_, ?_, ?_, ?_, ?_, ?_, h8, h9, fun hh => by simp at hh⟩
      · simp only [completedCount_append_notStarted]; exact h1
      · intro hh; simp at hh
      · intro _; simp only [List.length_append, List.length_singleton]; omega
      · intro hh; simp [CallerPc.pastLoop] at hh
      · intro hh; simp at hh
      · intro e he
        have := h6 e he
        simp only [List.length_append, List.length_singleton]; omega
      · intro j hj
        simp only [List.mem_append, List.mem_singleton, reduceCtorEq, or_false] at hj
        exact h7 j hj
    · refine ⟨h1, h0, ?_, ?_, ?_, ?_, h6, h7, h8, h9, fun hh => by simp at hh⟩
      · intro hh; simp at hh
      · intro hh; simp at hh
      · intro _; simp only; omega
      · intro hh; simp at hh
  · rename_i hpc
    have := h3 hpc
    simp only [Option.some.injEq] at h; subst h
    refine ⟨h1, ?_, ?_, ?_, ?_, ?_, h6, ?_, h8, ?_, fun hh => by simp at hh⟩
    · simp only; omega
    · intro _; simp only; omega
    · intro hh; simp at hh
    · intro hh; simp [CallerPc.pastLoop] at hh
    · intro hh; simp at hh
    · intro j hj
      exact mul_each_mono c.each s.i j h0 (h7 j hj)
    · simp only; omega
  · rename_i hpc
    have hp := h4 (by simp [hpc, CallerPc.pastLoop])
    split at h <;> simp only [Option.some.injEq] at h <;> subst h
    · rename_i hpos
      refine ⟨h1, h0, ?_, ?_, ?_, ?_, h6, h7, h8, h9, ?_⟩
      · intro hh; simp at hh
      · intro hh; simp at hh
      · intro _; exact hp
      · intro hh; simp at hh
      · intro _ _
        by_contra hno
        push_neg at hno
        have hall : ∀ u ∈ s.units, u.completed = true := by
          intro u hu
          rw [hno u hu]
          rfl
        have hcc : completedCount s.units = s.units.length := List.countP_eq_length.mpr hall
        omega
    · rename_i hcnt
      refine ⟨h1, h0, ?_, ?_, ?_, ?_, h6, h7, h8, h9, fun hh => by simp at hh⟩
      · intro hh; simp at hh
      · intro hh; simp at hh
      · intro _; exact hp
      · intro _ u hu
        have hall : completedCount s.units = s.units.length := by omega
        exact (List.countP_eq_length.mp hall) u hu
  · rename_i hpc
    have hp := h4 (by simp [hpc, CallerPc.pastLoop])
    split at h
    · simp only [Option.some.injEq] at h; subst h
      refine ⟨h1, h0, ?_, ?_, ?_, ?_, h6, h7, h8, h9, fun hh => by simp at hh⟩
      · intro hh; simp at hh
      · intro hh; simp at hh
      · intro _; exact hp
      · intro hh; simp at hh
    · simp at h
  · simp at h

theorem inv_set (c : Config) (s : State) (k : Nat) (old new : UnitPc)
    (hs : Inv c s) (hk : s.units.get? k = some old)
    (hold : old.completed = true → new.completed = true)
    (thr : Int) (hthr : thr + (if new.completed then 1 else 0)
        = s.threadsRunning + (if old.completed then 1 else 0))
    (sig : Bool) (lg : List (Nat × Int))
    (hlg : ∀ e ∈ lg, e.1 < s.units.length)
    (hrun : ∀ j, new = UnitPc.running j → 0 ≤ j ∨ (s.i + 1) * c.each ≤ j)
    (hempty : c.todo = [] → lg = [])
    (hwake : sig = false → new ≠ UnitPc.finished) :
    Inv c { s with units := s.units.set k new, threadsRunning := thr,
                   signalled := sig, log := lg } := by
  obtain ⟨h1, h0, h2, h3, h4, h5, h6, h7, h8, h9, h10⟩ := hs
  have hc := completedCount_set s.units k old new hk
  have hklt : k < s.units.length := (List.get?_eq_some.mp hk).1
  refine ⟨?_, h0, ?_, ?_, ?_, ?_, ?_, ?_, hempty, h9, ?_⟩
  rotate_right
  · intro _ hsig
    exact ⟨new, List.mem_iff_get?.mpr ⟨k, by simp [List.getElem?_set, hklt]⟩, hwake hsig⟩
  · cases ho : old.completed <;> cases hn : new.completed <;>
      simp only [ho, hn, Bool.false_eq_true, if_true, if_false, add_zero] at hc hthr <;>
      simp only <;> omega
  · simpa using h2
  · simpa using h3
  · simpa using h4
  · intro hpc u hu
    simp only at hpc hu
    rcases List.mem_or_eq_of_mem_set hu with hmem | heq
    · exact h5 hpc u hmem
    · subst heq
      exact hold (h5 hpc old (List.get?_mem hk))
  · simpa using hlg
  · intro j hj
    simp only at hj
    rcases List.mem_or_eq_of_mem_set hj with hmem | heq
    · exact h7 j hmem
    · exact hrun j heq.symm

theorem inv_workerStep (c : Config) (k : Nat) (s t : State) (hs : Inv c s)
    (h : workerStep c k s = some t) : Inv c t := by
  unfold workerStep at h
  split at h
  · simp at h
  · rename_i hk
    simp only [Option.some.injEq] at h; subst h
    refine inv_set c s k _ _ hs hk (by simp [UnitPc.completed]) s.threadsRunning
      (by simp [UnitPc.completed]) s.signalled s.log hs.logUnits ?_ hs.emptyTodo (by simp)
    intro j hj
    simp only [UnitPc.running.injEq] at hj
    subst hj
    rcases le_or_lt 0 c.each with he | he
    · exact Or.inl (mul_nonneg hs.i_nonneg he)
    · right
      exact mul_le_mul_of_nonpos_right (by omega) he.le
  · rename_i j hk
    split at h <;> simp only [Option.some.injEq] at h <;> subst h
    · rename_i hlt
      have hj := hs.running j (List.get?_mem hk)
      have hklt : k < s.units.length := by
        have := List.get?_eq_some.mp hk
        exact this.1
      refine inv_set c s k _ _ hs hk (by simp [UnitPc.completed]) s.threadsRunning
        (by simp [UnitPc.completed]) s.signalled _ ?_ ?_ ?_ (by simp)
      · intro e he
        rcases List.mem_append.mp he with h1 | h1
        · exact hs.logUnits e h1
        · simp only [List.mem_singleton] at h1
          subst h1
          exact hklt
      · intro j2 hj2
        simp only [UnitPc.running.injEq] at hj2
        subst hj2
        omega
      · intro hempty
        exfalso
        simp only [hempty, List.length_nil, Nat.cast_zero, lt_min_iff] at hlt
        omega
    · exact inv_set c s k _ _ hs hk (by simp [UnitPc.completed]) s.threadsRunning
        (by simp [UnitPc.completed]) s.signalled s.log hs.logUnits (by simp) hs.emptyTodo (by simp)
  · rename_i hk
    simp only [Option.some.injEq] at h; subst h
    exact inv_set c s k _ _ hs hk (by simp [UnitPc.completed]) (s.threadsRunning - 1)
      (by simp [UnitPc.completed]) s.signalled s.log hs.logUnits (by simp) hs.emptyTodo (by simp)
  · rename_i hk
    simp only [Option.some.injEq] at h; subst h
    exact inv_set c s k _ _ hs hk (by simp [UnitPc.completed]) s.threadsRunning
      (by simp [UnitPc.completed]) true s.log hs.logUnits (by simp) hs.emptyTodo (by simp)
  · simp at h

theorem inv_step (c : Config) (a : Action) (s t : State) (hs : Inv c s)
    (h : step c a s = some t) : Inv c t := by
  cases a with
  | caller => exact inv_callerStep c s t hs h
  | worker k => exact inv_workerStep c k s t hs h

theorem inv_runFrom (c : Config) (schedule : List Action) (s t : State) (hs : Inv c s)
    (h : runFrom c schedule s = some t) : Inv c t := by
  induction schedule generalizing s with
  | nil => simp only [runFrom, Option.some.injEq] at h; subst h; exact hs
  | cons a rest ih =>
    simp only [runFrom] at h
    split at h
    · simp at h
    · rename_i u hu
      exact ih u (inv_step c a s u hs hu) h

theorem inv_run (c : Config) (schedule : List Action) (s : State)
    (h : run c schedule = some s) : Inv c s :=
  inv_runFrom c schedule (initial c) s (inv_initial c) h

theorem runFrom_append (c : Config) (a b : List Action) (s : State) :
    runFrom c (a ++ b) s = (runFrom c a s).bind (runFrom c b) := by
  induction a generalizing s with
  | nil => simp [runFrom]
  | cons x rest ih =>
    simp only [List.cons_append, runFrom]
    cases step c x s with
    | none => simp
    | some t => simpa using ih t

theorem runFrom_cons_some (c : Config) (a : Action) (rest : List Action) (s t : State)
    (h : step c a s = some t) : runFrom c (a :: rest) s = runFrom c rest t := by
  simp only [runFrom, h]

theorem get?_snoc (pre : List UnitPc) (u : UnitPc) (k : Nat) (hk : pre.length = k) :
    (pre ++ [u]).get? k = some u := by
  subst hk
  simp

theorem set_snoc (pre : List UnitPc) (u v : UnitPc) (k : Nat) (hk : pre.length = k) :
    (pre ++ [u]).set k v = pre ++ [v] := by
  subst hk
  simp

theorem worker_loop (c : Config) (k : Nat) (pre : List UnitPc) (hk : pre.length = k)
    (iv : Int) (pc : CallerPc) (thr : Int) (sig : Bool) (n : Nat) :
    ∀ (j : Int) (lg : List (Nat × Int)),
      n = (min (c.todo.length : Int) ((iv + 1) * c.each) - j).toNat →
      runFrom c (List.replicate (n + 1) (Action.worker k))
          { i := iv, pc := pc, units := pre ++ [UnitPc.running j], threadsRunning := thr,
            signalled := sig, log := lg }
        = some { i := iv, pc := pc, units := pre ++ [UnitPc.loopDone], threadsRunning := thr,
                 signalled := sig,
                 log := lg ++ (List.range n).map
                   fun (d : Nat) => (k, arrayGet c.todo (j + (d : Int))) } := by
  induction n with
  | zero =>
    intro j lg hn
    have hlt : ¬ j < min (c.todo.length : Int) ((iv + 1) * c.each) := by omega
    rw [List.replicate_succ, runFrom_cons_some c _ _ _
      { i := iv, pc := pc, units := pre ++ [UnitPc.loopDone], threadsRunning := thr,
        signalled := sig, log := lg }]
    · simp [runFrom]
    · simp only [step, workerStep]
      rw [get?_snoc pre _ k hk]
      simp only [hlt, if_false, set_snoc pre _ _ k hk]
  | succ n ih =>
    intro j lg hn
    have hlt : j < min (c.todo.length : Int) ((iv + 1) * c.each) := by omega
    rw [List.replicate_succ, runFrom_cons_some c _ _ _
      { i := iv, pc := pc, units := pre ++ [UnitPc.running (j + 1)], threadsRunning := thr,
        signalled := sig, log := lg ++ [(k, arrayGet c.todo j)] }]
    · rw [ih (j + 1) _ (by omega)]
      simp only [Option.some.injEq, State.mk.injEq, true_and]
      rw [List.range_succ_eq_map, List.map_cons, List.map_map, List.append_assoc]
      simp only [Function.comp_def, Nat.cast_zero, add_zero, Nat.cast_succ,
        List.singleton_append, List.cons.injEq, true_and]
      have hd : ∀ d : Nat, j + 1 + (d : Int) = j + ((d : Int) + 1) := fun d => by ring
      simp only [hd]
    · simp only [step, workerStep]
      rw [get?_snoc pre _ k hk]
      simp only [hlt, if_true, set_snoc pre _ _ k hk]

theorem slice_length_eq (c : Config) (i : Int) :
    (slice c i).length
      = (min (c.todo.length : Int) ((i + 1) * c.each) - i * c.each).toNat := by
  simp [slice]

theorem taggedSlices_succ (c : Config) (n : Nat) :
    taggedSlices c (n + 1)
      = taggedSlices c n ++ (slice c (n : Int)).map fun v => (n, v) := by
  simp [taggedSlices, List.range_succ]

theorem sync_round (c : Config) (n : Nat) (hn : (n : Int) < c.num) :
    runFrom c
        (Action.caller :: List.replicate ((slice c (n : Int)).length + 4) (Action.worker n)
          ++ [Action.caller])
        (syncState c n)
      = some (syncState c (n + 1)) := by
  have hlen : (List.replicate n UnitPc.finished).length = n := List.length_replicate _ _
  have hrep : List.replicate ((slice c (n : Int)).length + 4) (Action.worker n)
      = Action.worker n :: (List.replicate ((slice c (n : Int)).length + 1) (Action.worker n)
          ++ [Action.worker n, Action.worker n]) := by
    rw [show (slice c (n : Int)).length + 4 = 1 + ((slice c (n : Int)).length + 1) + 2 by omega,
      List.replicate_add, List.replicate_add]
    rfl
  rw [hrep, List.cons_append, List.cons_append, List.append_assoc]
  -- the caller dispatches unit `n`
  rw [runFrom_cons_some c _ _ _
    { syncState c n with units := List.replicate n UnitPc.finished ++ [UnitPc.notStarted],
                         pc := CallerPc.increment }
    (by simp [step, callerStep, syncState, hn])]
  -- unit `n` starts and reads `i = n`
  rw [runFrom_cons_some c _ _ _
    { syncState c n with
        units := List.replicate n UnitPc.finished ++ [UnitPc.running ((n : Int) * c.each)],
        pc := CallerPc.increment }
    (by
      simp only [step, workerStep]
      rw [get?_snoc _ _ n hlen]
      simp only [set_snoc _ _ _ n hlen, syncState])]
  -- unit `n` walks its slice
  rw [runFrom_append]
  simp only [syncState]
  rw [worker_loop c n _ hlen (n : Int) CallerPc.increment _ _ _ _ _ (slice_length_eq c n)]
  simp only [Option.some_bind]
  -- decrement, signal, `i++`
  rw [List.cons_append, runFrom_cons_some c _ _ _
    { i := (n : Int), pc := CallerPc.increment,
      units := List.replicate n UnitPc.finished ++ [UnitPc.decremented],
      threadsRunning := c.num - n - 1, signalled := decide (0 < n),
      log := taggedSlices c n ++ (List.range (slice c (n : Int)).length).map
        fun (d : Nat) => (n, arrayGet c.todo ((n : Int) * c.each + (d : Int))) }
    (by
      simp only [step, workerStep]
      rw [get?_snoc _ _ n hlen]
      simp only [set_snoc _ _ _ n hlen])]
  rw [List.cons_append, runFrom_cons_some c _ _ _
    { i := (n : Int), pc := CallerPc.increment,
      units := List.replicate n UnitPc.finished ++ [UnitPc.finished],
      threadsRunning := c.num - n - 1, signalled := true,
      log := taggedSlices c n ++ (List.range (slice c (n : Int)).length).map
        fun (d : Nat) => (n, arrayGet c.todo ((n : Int) * c.each + (d : Int))) }
    (by
      simp only [step, workerStep]
      rw [get?_snoc _ _ n hlen]
      simp only [set_snoc _ _ _ n hlen])]
  simp only [List.nil_append, runFrom, step, callerStep, Option.some.injEq, State.mk.injEq,
    true_and]
  refine ⟨by push_cast; ring, ?_, by push_cast; ring, by simp, ?_⟩
  · rw [List.replicate_succ']
  · rw [taggedSlices_succ, slice_length_eq]
    simp [slice]

theorem syncState_zero (c : Config) : syncState c 0 = initial c := by
  simp [syncState, initial, taggedSlices]

theorem sync_rounds (c : Config) (n : Nat) (hn : n ≤ c.num.toNat) :
    runFrom c
        ((List.range n).map fun (k : Nat) =>
          Action.caller :: List.replicate ((slice c k).length + 4) (Action.worker k)
            ++ [Action.caller]).flatten
        (initial c)
      = some (syncState c n) := by
  induction n with
  | zero => simp [runFrom, syncState_zero]
  | succ n ih =>
    rw [List.range_succ, List.map_append, List.flatten_append, runFrom_append,
      ih (by omega)]
    simp only [List.map_cons, List.map_nil, List.flatten_cons, List.flatten_nil,
      List.append_nil, Option.some_bind]
    exact sync_round c n (by omega)

theorem run_syncSchedule (c : Config) :
    run c (syncSchedule c)
      = some { syncState c c.num.toNat with pc := CallerPc.returned } := by
  unfold run syncSchedule
  rw [runFrom_append, sync_rounds c c.num.toNat le_rfl]
  have h1 : ¬ ((c.num.toNat : Int) < c.num) := by omega
  have h2 : ¬ (c.num - (c.num.toNat : Int) > 0) := by omega
  simp [runFrom, step, callerStep, syncState, h1, h2]

theorem sum_unitWeight_set (c : Config) (units : List UnitPc) (k : Nat) (old new : UnitPc)
    (h : units.get? k = some old) :
    ((units.set k new).map (unitWeight c)).sum + unitWeight c old
      = (units.map (unitWeight c)).sum + unitWeight c new := by
  induction units generalizing k with
  | nil => simp at h
  | cons u rest ih =>
    cases k with
    | zero =>
      simp only [List.get?_cons_zero, Option.some.injEq] at h
      subst h
      simp only [List.set_cons_zero, List.map_cons, List.sum_cons]
      omega
    | succ k =>
      simp only [List.get?_cons_succ] at h
      have := ih k h
      simp only [List.set_cons_succ, List.map_cons, List.sum_cons]
      omega

theorem start_weight_lt (c : Config) (i : Int) (h0 : 0 ≤ i) (hle : i ≤ c.num.toNat) :
    unitWeight c (UnitPc.running (i * c.each)) < unitBudget c := by
  have habs : -(i * c.each) ≤ (c.num.toNat : Int) * (c.each.natAbs : Int) := by
    have h1 : -(i * c.each) ≤ |i * c.each| := neg_le_abs _
    have h2 : |i * c.each| = i * |c.each| := by rw [abs_mul, abs_of_nonneg h0]
    have h3 : i * |c.each| ≤ (c.num.toNat : Int) * |c.each| :=
      mul_le_mul_of_nonneg_right hle (abs_nonneg _)
    have h4 : ((c.each.natAbs : Nat) : Int) = |c.each| := Int.natCast_natAbs _
    rw [h4]
    linarith
  have hcast : ((c.num.toNat * c.each.natAbs : Nat) : Int)
      = (c.num.toNat : Int) * (c.each.natAbs : Int) := by push_cast; rfl
  simp only [unitWeight, unitBudget]
  omega

theorem stepsLeft_callerStep (c : Config) (s t : State) (hs : Inv c s)
    (h : callerStep c s = some t) : stepsLeft c t < stepsLeft c s := by
  unfold callerStep at h
  split at h
  · rename_i hpc
    split at h <;> simp only [Option.some.injEq] at h <;> subst h
    · rename_i hlt
      obtain ⟨r, hr⟩ : ∃ r, (c.num - s.i).toNat = r + 1 := ⟨(c.num - s.i).toNat - 1, by omega⟩
      simp only [stepsLeft, callerWeight, hpc, hr, List.map_append, List.sum_append,
        List.map_cons, List.map_nil, List.sum_cons, List.sum_nil, unitWeight,
        Nat.add_sub_cancel, Nat.succ_mul]
      omega
    · simp only [stepsLeft, callerWeight, hpc]
      omega
  · rename_i hpc
    have hlt := (hs.increment hpc).2
    simp only [Option.some.injEq] at h; subst h
    have hr : (c.num - (s.i + 1)).toNat = (c.num - s.i).toNat - 1 := by omega
    simp only [stepsLeft, callerWeight, hpc, hr]
    omega
  · rename_i hpc
    split at h <;> simp only [Option.some.injEq] at h <;> subst h <;>
      simp only [stepsLeft, callerWeight, hpc] <;> omega
  · rename_i hpc
    split at h
    · rename_i hsig
      simp only [Option.some.injEq] at h; subst h
      simp only [stepsLeft, callerWeight, hpc, hsig, if_true, Bool.false_eq_true, if_false]
      omega
    · simp at h
  · simp at h

theorem stepsLeft_workerStep (c : Config) (k : Nat) (s t : State) (hs : Inv c s)
    (h : workerStep c k s = some t) : stepsLeft c t < stepsLeft c s := by
  have hcw : ∀ (u : List UnitPc) (thr : Int) (sig : Bool) (lg : List (Nat × Int)),
      callerWeight c { s with units := u, threadsRunning := thr, signalled := sig, log := lg }
        = callerWeight c s := by
    intro u thr sig lg
    simp only [callerWeight]
  unfold workerStep at h
  split at h
  · simp at h
  · rename_i hk
    simp only [Option.some.injEq] at h; subst h
    have hsum := sum_unitWeight_set c s.units k _ (UnitPc.running (s.i * c.each)) hk
    have hlt := start_weight_lt c s.i hs.i_nonneg hs.i_le
    simp only [unitWeight] at hsum hlt
    simp only [stepsLeft, callerWeight]
    omega
  · rename_i j hk
    split at h <;> simp only [Option.some.injEq] at h <;> subst h
    · rename_i hlt
      have hsum := sum_unitWeight_set c s.units k _ (UnitPc.running (j + 1)) hk
      simp only [unitWeight] at hsum
      simp only [stepsLeft, callerWeight]
      omega
    · have hsum := sum_unitWeight_set c s.units k _ UnitPc.loopDone hk
      simp only [unitWeight] at hsum
      simp only [stepsLeft, callerWeight]
      omega
  · rename_i hk
    simp only [Option.some.injEq] at h; subst h
    have hsum := sum_unitWeight_set c s.units k _ UnitPc.decremented hk
    simp only [unitWeight] at hsum
    simp only [stepsLeft, callerWeight]
    omega
  · rename_i hk
    simp only [Option.some.injEq] at h; subst h
    have hsum := sum_unitWeight_set c s.units k _ UnitPc.finished hk
    simp only [unitWeight] at hsum
    simp only [stepsLeft, callerWeight, if_true]
    split <;> omega
  · simp at h

theorem stepsLeft_step (c : Config) (a : Action) (s t : State) (hs : Inv c s)
    (h : step c a s = some t) : stepsLeft c t < stepsLeft c s := by
  cases a with
  | caller => exact stepsLeft_callerStep c s t hs h
  | worker k => exact stepsLeft_workerStep c k s t hs h

theorem runFrom_length_le (c : Config) (schedule : List Action) (s t : State) (hs : Inv c s)
    (h : runFrom c schedule s = some t) :
    schedule.length + stepsLeft c t ≤ stepsLeft c s := by
  induction schedule generalizing s with
  | nil => simp only [runFrom, Option.some.injEq] at h; subst h; simp
  | cons a rest ih =>
    simp only [runFrom] at h
    split at h
    · simp at h
    · rename_i u hu
      have h1 := ih u (inv_step c a s u hs hu) h
      have h2 := stepsLeft_step c a s u hs hu
      simp only [List.length_cons]
      omega

theorem step_enabled (c : Config) (s : State) (hs : Inv c s)
    (hpc : s.pc ≠ CallerPc.returned) : ∃ a t, step c a s = some t := by
  cases hp : s.pc with
  | forTest =>
    refine ⟨Action.caller, ?_⟩
    simp only [step, callerStep, hp]
    split <;> exact ⟨_, rfl⟩
  | increment =>
    refine ⟨Action.caller, ?_⟩
    simp only [step, callerStep, hp]
    exact ⟨_, rfl⟩
  | whileTest =>
    refine ⟨Action.caller, ?_⟩
    simp only [step, callerStep, hp]
    split <;> exact ⟨_, rfl⟩
  | inWait =>
    cases hsig : s.signalled with
    | true =>
      refine ⟨Action.caller, ?_⟩
      simp only [step, callerStep, hp, hsig, if_true]
      exact ⟨_, rfl⟩
    | false =>
      obtain ⟨u, hu, hne⟩ := hs.wake hp hsig
      obtain ⟨k, hk⟩ := List.mem_iff_get?.mp hu
      refine ⟨Action.worker k, ?_⟩
      simp only [step, workerStep, hk]
      cases u with
      | notStarted => exact ⟨_, rfl⟩
      | running j => simp only; split <;> exact ⟨_, rfl⟩
      | loopDone => exact ⟨_, rfl⟩
      | decremented => exact ⟨_, rfl⟩
      | finished => exact absurd rfl hne
  | returned => exact absurd hp hpc

theorem can_return (c : Config) (n : Nat) :
    ∀ s, Inv c s → stepsLeft c s ≤ n →
      ∃ more t, runFrom c more s = some t ∧ t.pc = CallerPc.returned := by
  induction n with
  | zero =>
    intro s hs hn
    by_cases hpc : s.pc = CallerPc.returned
    · exact ⟨[], s, rfl, hpc⟩
    · obtain ⟨a, t, ht⟩ := step_enabled c s hs hpc
      have := stepsLeft_step c a s t hs ht
      omega
  | succ n ih =>
    intro s hs hn
    by_cases hpc : s.pc = CallerPc.returned
    · exact ⟨[], s, rfl, hpc⟩
    · obtain ⟨a, t, ht⟩ := step_enabled c s hs hpc
      have hlt := stepsLeft_step c a s t hs ht
      obtain ⟨more, t2, hm, hret⟩ := ih t (inv_step c a s t hs ht) (by omega)
      exact ⟨a :: more, t2, by simp only [runFrom, ht, hm], hret⟩

/-- Every execution is finite and ends with the caller returned: a schedule
cannot be longer than `stepsLeft` of the initial state, it cannot get stuck
before the caller has returned, and it can always be continued to the
return. -/
theorem run_terminates (c : Config) (schedule : List Action) (s : State)
    (h : run c schedule = some s) :
    schedule.length ≤ stepsLeft c (initial c) ∧
    (s.pc ≠ CallerPc.returned → ∃ a t, run c (schedule ++ [a]) = some t) ∧
    ∃ more t, run c (schedule ++ more) = some t ∧ t.pc = CallerPc.returned := by
  have hinv := inv_run c schedule s h
  have hlen := runFrom_length_le c schedule (initial c) s (inv_initial c) h
  refine ⟨by omega, ?_, ?_⟩
  · intro hpc
    obtain ⟨a, t, ht⟩ := step_enabled c s hinv hpc
    refine ⟨a, t, ?_⟩
    unfold run at h ⊢
    rw [runFrom_append, h]
    simp only [Option.some_bind, runFrom, ht]
  · obtain ⟨more, t, hm, hret⟩ := can_return c (stepsLeft c s) s hinv le_rfl
    refine ⟨more, t, ?_, hret⟩
    unfold run at h ⊢
    rw [runFrom_append, h]
    exact hm

theorem indexSeq_of_le (start end_ step : Int) (hstep : 0 < step) (h : end_ ≤ start) :
    indexSeq start end_ step = [] := by
  have : (end_ - start + step - 1) / step ≤ 0 := by
    have : (end_ - start + step - 1) / step < 1 := by
      rw [Int.ediv_lt_iff_lt_mul hstep]; omega
    omega
  simp [indexSeq, Int.toNat_eq_zero.mpr this]

theorem indexSeq_of_lt (start end_ step : Int) (hstep : 0 < step) (h : start < end_) :
    indexSeq start end_ step = start :: indexSeq (start + step) end_ step := by
  have h1 : end_ - start + step - 1 = (end_ - (start + step) + step - 1) + 1 * step := by ring
  have h2 : 0 ≤ (end_ - (start + step) + step - 1) / step :=
    Int.ediv_nonneg (by omega) hstep.le
  unfold indexSeq
  rw [h1, Int.add_mul_ediv_right _ _ hstep.ne', Int.toNat_add h2 (by norm_num)]
  simp only [Int.toNat_one, List.range_succ_eq_map, List.map_cons, List.map_map,
    Nat.cast_zero, zero_mul, add_zero, List.cons.injEq, true_and]
  refine List.map_congr_left fun k _ => ?_
  simp only [Function.comp_apply, Nat.cast_succ]
  ring

theorem wrapInt_of_mem (x : Int) (hlo : -2147483648 ≤ x) (hhi : x < 2147483648) :
    wrapInt x = x := by
  unfold wrapInt
  omega

theorem todoLoop_eq (end_ step : Int) (hstep : 0 < step)
    (hend : end_ + step ≤ 2147483648) (fuel : Nat) :
    ∀ (i : Int) (acc : List Int), -2147483648 ≤ i → (end_ - i).toNat < fuel →
      todoLoop fuel i end_ step acc = some (acc ++ indexSeq i end_ step) := by
  induction fuel with
  | zero => intro i acc _ h; omega
  | succ fuel ih =>
    intro i acc hi h
    unfold todoLoop
    split
    · rename_i hlt
      rw [wrapInt_of_mem (i + step) (by omega) (by omega),
        ih (i + step) (acc ++ [i]) (by omega) (by omega), indexSeq_of_lt i end_ step hstep hlt]
      simp
    · rename_i hge
      rw [indexSeq_of_le i end_ step hstep (by omega)]
      simp

theorem materialise_eq (start end_ step : Int) (hstep : 0 < step)
    (hstart : -2147483648 ≤ start) (hend : end_ + step ≤ 2147483648) (fuel : Nat)
    (hfuel : (end_ - start).toNat < fuel) :
    materialise fuel start end_ step = some (indexSeq start end_ step) := by
  simp [materialise, todoLoop_eq end_ step hstep hend fuel start [] hstart hfuel]

theorem todoLoop_of_le (end_ step : Int) (fuel : Nat) (i : Int) (acc : List Int)
    (h : end_ ≤ i) : todoLoop (fuel + 1) i end_ step acc = some acc := by
  unfold todoLoop
  rw [if_neg (by omega)]

theorem arrayGet_natCast (todo : List Int) (n : Nat) (h : n < todo.length) :
    arrayGet todo (n : Int) = todo[n] := by
  simp [arrayGet, List.getD_eq_getElem?_getD, List.getElem?_eq_getElem h]

theorem slice_eq_take_drop (todo : List Int) (E : Nat) (num : Int) (k : Nat) :
    slice ⟨todo, (E : Int), num⟩ (k : Int) = (todo.drop (k * E)).take E := by
  apply List.ext_getElem?
  intro d
  simp only [slice, List.getElem?_map, List.getElem?_take, List.getElem?_drop]
  have hmul : ((k : Int) + 1) * (E : Int) = ((k * E + E : Nat) : Int) := by push_cast; ring
  have hmul2 : (k : Int) * (E : Int) = ((k * E : Nat) : Int) := by push_cast; ring
  rw [hmul, hmul2]
  by_cases hd : d < (min (todo.length : Int) ((k * E + E : Nat) : Int) - ((k * E : Nat) : Int)).toNat
  · have hdE : d < E := by omega
    have hlt : k * E + d < todo.length := by omega
    rw [List.getElem?_range hd, if_pos hdE, List.getElem?_eq_getElem hlt]
    simp only [Option.map_some']
    rw [← Nat.cast_add, arrayGet_natCast todo _ hlt]
  · rw [List.getElem?_eq_none (by simpa using Nat.le_of_not_lt hd)]
    simp only [Option.map_none']
    split
    · rename_i hdE
      rw [eq_comm, List.getElem?_eq_none]
      omega
    · rfl

theorem flatten_take_drop (todo : List Int) (E : Nat) (n : Nat) :
    ((List.range n).map fun (k : Nat) => (todo.drop (k * E)).take E).flatten
      = todo.take (n * E) := by
  induction n with
  | zero => simp
  | succ n ih =>
    rw [List.range_succ, List.map_append, List.flatten_append, ih]
    simp only [List.map_cons, List.map_nil, List.flatten_cons, List.flatten_nil,
      List.append_nil]
    rw [Nat.succ_mul, List.take_add]

theorem slices_flatten (todo : List Int) (E : Nat) (num : Int) :
    (slices ⟨todo, (E : Int), num⟩).flatten = todo.take (num.toNat * E) := by
  rw [← flatten_take_drop]
  simp only [slices, slice_eq_take_drop]

theorem slices_flatten_of_le (c : Config) (heach : 0 ≤ c.each)
    (hcover : (c.todo.length : Int) ≤ c.num * c.each) :
    (slices c).flatten = c.todo := by
  obtain ⟨todo, each, num⟩ := c
  simp only at heach hcover
  obtain ⟨E, rfl⟩ := Int.eq_ofNat_of_zero_le heach
  rw [slices_flatten]
  apply List.take_of_length_le
  rcases le_or_lt num 0 with hn | hn
  · have : num * (E : Int) ≤ 0 := mul_nonpos_of_nonpos_of_nonneg hn (by omega)
    have : todo.length = 0 := by omega
    omega
  · obtain ⟨N, rfl⟩ := Int.eq_ofNat_of_zero_le hn.le
    simp only [Int.toNat_ofNat]
    exact_mod_cast hcover

theorem log2_eq (x : ℚ) (e : Int) (hx : 0 < x) (h1 : (2 : ℚ) ^ e ≤ x)
    (h2 : x < (2 : ℚ) ^ (e + 1)) : Int.log 2 x = e := by
  have ha : e ≤ Int.log 2 x :=
    (Int.zpow_le_iff_le_log (by norm_num) hx).mp (by simpa using h1)
  have hb : Int.log 2 x < e + 1 :=
    (Int.lt_zpow_iff_log_lt (by norm_num) hx).mp (by simpa using h2)
  omega

theorem roundF32_pos (x : ℚ) (e : Int) (hx : 0 < x) (h1 : (2 : ℚ) ^ e ≤ x)
    (h2 : x < (2 : ℚ) ^ (e + 1)) :
    roundF32 x = (roundHalfEven (x * (2 : ℚ) ^ (23 - e)) : ℚ) * (2 : ℚ) ^ (e - 23) := by
  unfold roundF32
  rw [if_neg hx.ne', abs_of_pos hx, log2_eq x e hx h1 h2]

theorem roundF32_zero : roundF32 0 = 0 := by
  simp [roundF32]

theorem eachOf_zero (num : Int) : eachOf 0 num = 0 := by
  simp [eachOf, roundF32_zero]

theorem roundF32_one : roundF32 1 = 1 := by
  rw [roundF32_pos 1 0 (by norm_num) (by norm_num) (by norm_num)]
  norm_num [roundHalfEven]

theorem roundF32_two : roundF32 2 = 2 := by
  rw [roundF32_pos 2 1 (by norm_num) (by norm_num) (by norm_num)]
  norm_num [roundHalfEven]

theorem roundF32_16777217 : roundF32 16777217 = 16777216 := by
  rw [roundF32_pos 16777217 24 (by norm_num) (by norm_num) (by norm_num)]
  norm_num [roundHalfEven]

theorem roundF32_16777216 : roundF32 16777216 = 16777216 := by
  rw [roundF32_pos 16777216 24 (by norm_num) (by norm_num) (by norm_num)]
  norm_num [roundHalfEven]

theorem eachOf_16777217_1 : eachOf 16777217 1 = 16777216 := by
  simp only [eachOf, Nat.cast_ofNat, Int.cast_one, roundF32_one, div_one, roundF32_16777217,
    roundF32_16777216]
  norm_num

theorem eachOf_2_2 : eachOf 2 2 = 1 := by
  simp only [eachOf, Nat.cast_ofNat, Int.cast_ofNat, roundF32_two]
  norm_num [roundF32_one]

theorem eachOf_2_8 : eachOf 2 8 = 1 := by
  have h8 : roundF32 8 = 8 := by
    rw [roundF32_pos 8 3 (by norm_num) (by norm_num) (by norm_num)]
    norm_num [roundHalfEven]
  have hq : roundF32 (2 / 8) = 1 / 4 := by
    rw [roundF32_pos (2 / 8) (-2) (by norm_num) (by norm_num) (by norm_num)]
    norm_num [roundHalfEven]
  simp only [eachOf, Nat.cast_ofNat, Int.cast_ofNat, roundF32_two, h8, hq]
  rw [Int.ceil_eq_iff]
  norm_num

theorem eachOf_10_3 : eachOf 10 3 = 4 := by
  have h10 : roundF32 10 = 10 := by
    rw [roundF32_pos 10 3 (by norm_num) (by norm_num) (by norm_num)]
    norm_num [roundHalfEven]
  have h3 : roundF32 3 = 3 := by
    rw [roundF32_pos 3 1 (by norm_num) (by norm_num) (by norm_num)]
    norm_num [roundHalfEven]
  have hq : roundF32 (10 / 3) = 13981013 / 4194304 := by
    rw [roundF32_pos (10 / 3) 1 (by norm_num) (by norm_num) (by norm_num)]
    norm_num [roundHalfEven]
  simp only [eachOf, Nat.cast_ofNat, Int.cast_ofNat, h10, h3, hq]
  rw [Int.ceil_eq_iff]
  norm_num

theorem eachOf_16777217_8 : eachOf 16777217 8 = 2097152 := by
  have h8 : roundF32 8 = 8 := by
    rw [roundF32_pos 8 3 (by norm_num) (by norm_num) (by norm_num)]
    norm_num [roundHalfEven]
  have hq : roundF32 (16777216 / 8) = 2097152 := by
    rw [roundF32_pos (16777216 / 8) 21 (by norm_num) (by norm_num) (by norm_num)]
    norm_num [roundHalfEven]
  simp only [eachOf, Nat.cast_ofNat, Int.cast_ofNat, roundF32_16777217, h8, hq]
  norm_num

theorem floor_le_roundHalfEven (s : ℚ) : ⌊s⌋ ≤ roundHalfEven s := by
  unfold roundHalfEven
  split_ifs <;> omega

theorem roundHalfEven_le_floor_add_one (s : ℚ) : roundHalfEven s ≤ ⌊s⌋ + 1 := by
  unfold roundHalfEven
  split_ifs <;> omega

theorem le_roundHalfEven (s : ℚ) (z : Int) (hz : (z : ℚ) ≤ s) : z ≤ roundHalfEven s :=
  le_trans (Int.le_floor.mpr hz) (floor_le_roundHalfEven s)

theorem roundHalfEven_le (s : ℚ) (z : Int) (hz : s ≤ (z : ℚ)) : roundHalfEven s ≤ z := by
  by_cases h : s - ⌊s⌋ < 1 / 2
  · have : roundHalfEven s = ⌊s⌋ := by simp only [roundHalfEven, if_pos h]
    rw [this]
    exact_mod_cast le_trans (Int.floor_le s) hz
  · have hlt : (⌊s⌋ : ℚ) < z := by
      have := Int.floor_le s
      linarith
    have : ⌊s⌋ < z := by exact_mod_cast hlt
    have := roundHalfEven_le_floor_add_one s
    omega

theorem add_one_le_roundHalfEven (s : ℚ) (z : Int) (hz : (z : ℚ) + 1 / 2 < s) :
    z + 1 ≤ roundHalfEven s := by
  have hzf : z ≤ ⌊s⌋ := Int.le_floor.mpr (by linarith)
  rcases lt_or_eq_of_le hzf with h | h
  · have := floor_le_roundHalfEven s
    omega
  · have h1 : ¬ (s - ⌊s⌋ < 1 / 2) := by rw [← h]; linarith
    have h2 : 1 / 2 < s - ⌊s⌋ := by rw [← h]; linarith
    have : roundHalfEven s = ⌊s⌋ + 1 := by simp only [roundHalfEven, h1, h2, if_true, if_false]
    omega

theorem roundHalfEven_intCast (z : Int) : roundHalfEven (z : ℚ) = z := by
  simp [roundHalfEven]

theorem two_zpow_23 : (2 : ℚ) ^ (23 : Int) = 8388608 := by norm_num

theorem two_zpow_24 : (2 : ℚ) ^ (24 : Int) = 16777216 := by norm_num

/-- For positive `x` the scaled significand lies in `[2^23, 2^24)`. -/
theorem significand_bounds (x : ℚ) (hx : 0 < x) :
    (8388608 : ℚ) ≤ x * (2 : ℚ) ^ (23 - Int.log 2 x) ∧
    x * (2 : ℚ) ^ (23 - Int.log 2 x) < 16777216 := by
  have h1 : (2 : ℚ) ^ Int.log 2 x ≤ x := by
    simpa using Int.zpow_log_le_self (b := 2) (r := x) (by norm_num) hx
  have h2 : x < (2 : ℚ) ^ (Int.log 2 x + 1) := by
    simpa using Int.lt_zpow_succ_log_self (b := 2) (by norm_num) x
  have hpos : (0 : ℚ) < (2 : ℚ) ^ (23 - Int.log 2 x) := zpow_pos (by norm_num) _
  rw [← two_zpow_23, ← two_zpow_24]
  constructor
  · calc (2 : ℚ) ^ (23 : Int) = (2 : ℚ) ^ Int.log 2 x * (2 : ℚ) ^ (23 - Int.log 2 x) := by
          rw [← zpow_add₀ (by norm_num)]; congr 1; ring
      _ ≤ x * (2 : ℚ) ^ (23 - Int.log 2 x) := mul_le_mul_of_nonneg_right h1 hpos.le
  · calc x * (2 : ℚ) ^ (23 - Int.log 2 x)
        < (2 : ℚ) ^ (Int.log 2 x + 1) * (2 : ℚ) ^ (23 - Int.log 2 x) :=
          mul_lt_mul_of_pos_right h2 hpos
      _ = (2 : ℚ) ^ (24 : Int) := by
          rw [← zpow_add₀ (by norm_num)]; congr 1; ring

theorem roundF32_of_pos (x : ℚ) (hx : 0 < x) :
    roundF32 x = (roundHalfEven (x * (2 : ℚ) ^ (23 - Int.log 2 x)) : ℚ)
      * (2 : ℚ) ^ (Int.log 2 x - 23) := by
  unfold roundF32
  rw [if_neg hx.ne', abs_of_pos hx]

/-- The rounded significand lies in `[2^23, 2^24]`. -/
theorem roundHalfEven_significand (x : ℚ) (hx : 0 < x) :
    (8388608 : ℚ) ≤ roundHalfEven (x * (2 : ℚ) ^ (23 - Int.log 2 x)) ∧
    (roundHalfEven (x * (2 : ℚ) ^ (23 - Int.log 2 x)) : ℚ) ≤ 16777216 := by
  obtain ⟨hs1, hs2⟩ := significand_bounds x hx
  constructor
  · exact_mod_cast le_roundHalfEven _ 8388608 (by exact_mod_cast hs1)
  · exact_mod_cast roundHalfEven_le _ 16777216 (by exact_mod_cast hs2.le)

/-- Rounding stays inside the binade: `2^e ≤ roundF32 x ≤ 2^(e+1)`. -/
theorem roundF32_bounds (x : ℚ) (hx : 0 < x) :
    (2 : ℚ) ^ Int.log 2 x ≤ roundF32 x ∧ roundF32 x ≤ (2 : ℚ) ^ (Int.log 2 x + 1) := by
  obtain ⟨hm1, hm2⟩ := roundHalfEven_significand x hx
  have hpos : (0 : ℚ) < (2 : ℚ) ^ (Int.log 2 x - 23) := zpow_pos (by norm_num) _
  rw [roundF32_of_pos x hx]
  constructor
  · calc (2 : ℚ) ^ Int.log 2 x = (2 : ℚ) ^ (23 : Int) * (2 : ℚ) ^ (Int.log 2 x - 23) := by
          rw [← zpow_add₀ (by norm_num)]; congr 1; ring
      _ ≤ _ := by
          rw [two_zpow_23]
          exact mul_le_mul_of_nonneg_right hm1 hpos.le
  · calc _ ≤ (2 : ℚ) ^ (24 : Int) * (2 : ℚ) ^ (Int.log 2 x - 23) := by
          rw [two_zpow_24]
          exact mul_le_mul_of_nonneg_right hm2 hpos.le
      _ = (2 : ℚ) ^ (Int.log 2 x + 1) := by
          rw [← zpow_add₀ (by norm_num)]; congr 1; ring

theorem roundF32_of_significand_int (x : ℚ) (hx : 0 < x) (z : Int)
    (hz : x * (2 : ℚ) ^ (23 - Int.log 2 x) = (z : ℚ)) : roundF32 x = x := by
  rw [roundF32_of_pos x hx, hz, roundHalfEven_intCast, ← hz, mul_assoc,
    ← zpow_add₀ (by norm_num)]
  simp

theorem roundF32_natCast (n : Nat) (hn : n ≤ 16777216) : roundF32 (n : ℚ) = n := by
  rcases Nat.eq_zero_or_pos n with h0 | hpos
  · subst h0; simpa using roundF32_zero
  rcases Nat.lt_or_ge n 16777216 with hlt | hge
  · have hlog : Nat.log 2 n < 24 := Nat.log_lt_of_lt_pow hpos.ne' (by norm_num; exact hlt)
    have hx : (0 : ℚ) < n := by exact_mod_cast hpos
    apply roundF32_of_significand_int (n : ℚ) hx ((n * 2 ^ (23 - Nat.log 2 n) : Nat) : Int)
    rw [Int.log_natCast]
    have : (23 : Int) - (Nat.log 2 n : Int) = ((23 - Nat.log 2 n : Nat) : Int) := by omega
    rw [this, zpow_natCast]
    push_cast
    ring
  · have : n = 16777216 := by omega
    subst this
    simpa using roundF32_16777216

theorem ceil_roundF32_of_le_one (x : ℚ) (hx : 0 < x) (hx1 : x ≤ 1) : ⌈roundF32 x⌉ = 1 := by
  rcases lt_or_eq_of_le hx1 with hlt | heq
  · obtain ⟨hb1, hb2⟩ := roundF32_bounds x hx
    have hlog : Int.log 2 x < 0 :=
      (Int.lt_zpow_iff_log_lt (b := 2) (by norm_num) hx).mp (by simpa using hlt)
    have hpos : (0 : ℚ) < roundF32 x := lt_of_lt_of_le (zpow_pos (by norm_num) _) hb1
    have hle : roundF32 x ≤ 1 :=
      le_trans hb2 (zpow_le_one_of_nonpos₀ (by norm_num) (by omega))
    rw [Int.ceil_eq_iff]
    constructor
    · simpa using hpos
    · simpa using hle
  · rw [heq, roundF32_one]; simp

theorem ceil_roundF32_div (M N : Nat) (hN : 0 < N) (hM : M ≤ 16777216) (hNM : N ≤ M) :
    ⌈roundF32 ((M : ℚ) / N)⌉ = ⌈(M : ℚ) / N⌉ := by
  have hNq : (0 : ℚ) < N := by exact_mod_cast hN
  rcases Nat.eq_zero_or_pos (M % N) with hr | hr
  · -- the quotient is an integer of at most 24 bits
    obtain ⟨k, hk⟩ := Nat.dvd_of_mod_eq_zero hr
    have hkM : k ≤ 16777216 := by
      have : k ≤ N * k := Nat.le_mul_of_pos_left k hN
      omega
    have hq : (M : ℚ) / N = (k : ℚ) := by
      rw [hk]; push_cast; field_simp
    rw [hq, roundF32_natCast k hkM]
  · -- the quotient lies strictly between `k` and `k + 1`
    set k := M / N with hkdef
    have hdiv : N * k + M % N = M := Nat.div_add_mod M N
    have hmodlt : M % N < N := Nat.mod_lt M hN
    have hk1 : 1 ≤ k := Nat.div_pos hNM hN
    have hx : (0 : ℚ) < (M : ℚ) / N := div_pos (by exact_mod_cast lt_of_lt_of_le hN hNM) hNq
    have hMq : (M : ℚ) = k * N + ((M % N : Nat) : ℚ) := by
      have : M = k * N + M % N := by rw [Nat.mul_comm]; exact hdiv.symm
      exact_mod_cast this
    have hrq : (0 : ℚ) < ((M % N : Nat) : ℚ) := by exact_mod_cast hr
    have hrN : ((M % N : Nat) : ℚ) < N := by exact_mod_cast hmodlt
    have hklt : (k : ℚ) < (M : ℚ) / N := by
      rw [lt_div_iff₀ hNq]; linarith
    have hltk : (M : ℚ) / N < k + 1 := by
      rw [div_lt_iff₀ hNq]; linarith
    have hceil : ⌈(M : ℚ) / N⌉ = (k : Int) + 1 := by
      rw [Int.ceil_eq_iff]
      push_cast
      constructor <;> linarith
    -- the exponent and the scaling factor
    have hfloor : ⌊(M : ℚ) / N⌋₊ = k := by
      rw [Nat.floor_eq_iff hx.le]
      exact ⟨hklt.le, hltk⟩
    have hlogeq : Int.log 2 ((M : ℚ) / N) = (Nat.log 2 k : Int) := by
      rw [Int.log_of_one_le_right 2 (by
        have : (1 : ℚ) ≤ k := by exact_mod_cast hk1
        linarith), hfloor]
    have hkN : k * N < 16777216 := by
      have : k * N + M % N = M := by rw [Nat.mul_comm]; exact hdiv
      omega
    have hklt24 : k < 2 ^ 24 := by
      have : k ≤ k * N := Nat.le_mul_of_pos_right k hN
      norm_num; omega
    have hlog : Nat.log 2 k < 24 := Nat.log_lt_of_lt_pow (by omega) hklt24
    have hpow : 2 ^ Nat.log 2 k ≤ k := Nat.pow_log_le_self 2 (by omega)
    set P : Nat := 2 ^ (23 - Nat.log 2 k) with hP
    have hPpos : 0 < P := Nat.pos_pow_of_pos _ (by norm_num)
    have hPq : (0 : ℚ) < P := by exact_mod_cast hPpos
    have hNP : N < 2 * P := by
      have h1 : 2 ^ Nat.log 2 k * (2 * P) = 16777216 := by
        rw [hP, ← pow_succ', ← pow_add]
        have : Nat.log 2 k + (23 - Nat.log 2 k + 1) = 24 := by omega
        rw [this]; norm_num
      have h2 : 2 ^ Nat.log 2 k * N < 2 ^ Nat.log 2 k * (2 * P) := by
        rw [h1]
        exact lt_of_le_of_lt (Nat.mul_le_mul_right N hpow) hkN
      exact Nat.lt_of_mul_lt_mul_left h2
    have hz1 : (2 : ℚ) ^ ((23 : Int) - (Nat.log 2 k : Int)) = (P : ℚ) := by
      have : (23 : Int) - (Nat.log 2 k : Int) = ((23 - Nat.log 2 k : Nat) : Int) := by omega
      rw [this, zpow_natCast, hP]
      push_cast
      rfl
    have hz2 : (2 : ℚ) ^ ((Nat.log 2 k : Int) - 23) = (P : ℚ)⁻¹ := by
      rw [← hz1, ← zpow_neg]
      congr 1
      ring
    rw [hceil, roundF32_of_pos _ hx, hlogeq, hz1, hz2, Int.ceil_eq_iff]
    -- bounds on the rounded significand
    have hup : roundHalfEven ((M : ℚ) / N * P) ≤ ((k + 1) * P : Nat) := by
      apply roundHalfEven_le
      push_cast
      exact mul_le_mul_of_nonneg_right hltk.le hPq.le
    have hlo : ((k * P : Nat) : Int) + 1 ≤ roundHalfEven ((M : ℚ) / N * P) := by
      apply add_one_le_roundHalfEven
      push_cast
      have hNP' : (N : ℚ) < 2 * P := by exact_mod_cast hNP
      have h3 : (M : ℚ) / N * P = k * P + ((M % N : Nat) : ℚ) * P / N := by
        rw [hMq]; field_simp; ring
      rw [h3]
      have h4 : (1 : ℚ) / 2 < ((M % N : Nat) : ℚ) * P / N := by
        rw [lt_div_iff₀ hNq]
        have : (1 : ℚ) ≤ ((M % N : Nat) : ℚ) := by exact_mod_cast hr
        nlinarith
      linarith
    have hupq : (roundHalfEven ((M : ℚ) / N * P) : ℚ) ≤ (k + 1) * P := by
      exact_mod_cast hup
    have hloq : (k : ℚ) * P + 1 ≤ (roundHalfEven ((M : ℚ) / N * P) : ℚ) := by
      exact_mod_cast hlo
    push_cast
    constructor
    · rw [lt_mul_inv_iff₀ hPq]
      linarith
    · rw [mul_inv_le_iff₀ hPq]
      linarith

theorem taggedSlices_snd (c : Config) (n : Nat) :
    (taggedSlices c n).map Prod.snd
      = ((List.range n).map fun (k : Nat) => slice c k).flatten := by
  induction n with
  | zero => simp [taggedSlices]
  | succ n ih =>
    rw [taggedSlices_succ, List.map_append, ih, List.range_succ, List.map_append,
      List.flatten_append]
    simp [Function.comp_def]

theorem sync_log_eq_slices (c : Config) :
    ∃ s, run c (syncSchedule c) = some s ∧ s.pc = CallerPc.returned ∧
      s.units.length = c.num.toNat ∧ s.threadsRunning = c.num - c.num.toNat ∧
      s.log.map Prod.snd = (slices c).flatten :=
  ⟨_, run_syncSchedule c, rfl, by simp [syncState], rfl, by
    simpa [syncState, slices] using taggedSlices_snd c c.num.toNat⟩

theorem multiThreadedFor_of_ready (fuel : Nat) (num start end_ interval : Int) (c : Config)
    (schedule : List Action) (h : setup fuel num start end_ interval = Setup.ready c) :
    multiThreadedFor fuel num start end_ interval schedule = run c schedule := by
  simp only [multiThreadedFor, h]

theorem indexSeq_unit (n : Nat) :
    indexSeq 0 (n : Int) 1 = (List.range n).map fun (k : Nat) => (k : Int) := by
  simp [indexSeq]

theorem mem_slices_indexSeq_unit (n E : Nat) (num : Int) (v : Int) :
    v ∈ (slices ⟨indexSeq 0 (n : Int) 1, (E : Int), num⟩).flatten
      ↔ ∃ k : Nat, k < min (num.toNat * E) n ∧ (k : Int) = v := by
  rw [slices_flatten, indexSeq_unit, ← List.map_take, List.take_range, List.mem_map]
  simp only [List.mem_range]

/-- C1: with 16777217 indices and one worker the chunk size is 16777216, so
the only slice stops one short: index 16777216 is materialised but is not in
any slice, and the run in which the unit executes at once returns without
having passed it to the callback. -/
theorem multiThreadedFor_skips_last_index :
    ∃ c s, setup 16777218 1 0 16777217 1 = Setup.ready c ∧
      c.todo = indexSeq 0 16777217 1 ∧ c.todo.length = 16777217 ∧ c.each = 16777216 ∧
      (16777216 : Int) ∈ c.todo ∧ (16777216 : Int) ∉ (slices c).flatten ∧
      multiThreadedFor 16777218 1 0 16777217 1 (syncSchedule c) = some s ∧
      s.pc = CallerPc.returned ∧ s.log.map Prod.snd = (slices c).flatten := by
  obtain ⟨todo, htodo⟩ : ∃ todo, todo = indexSeq 0 16777217 1 := ⟨_, rfl⟩
  have hm : materialise 16777218 0 16777217 1 = some todo := by
    rw [htodo]
    exact materialise_eq 0 16777217 1 (by norm_num) (by norm_num) (by norm_num) 16777218
      (by omega)
  have hlen : todo.length = 16777217 := by
    rw [htodo]
    simp [indexSeq]
  obtain ⟨s, hs1, hs2, -, -, hs3⟩ := sync_log_eq_slices ⟨todo, 16777216, 1⟩
  have hsetup : setup 16777218 1 0 16777217 1 = Setup.ready ⟨todo, 16777216, 1⟩ := by
    simp only [setup, hm, hlen, eachOf_16777217_1]
    simp
  refine ⟨⟨todo, 16777216, 1⟩, s, hsetup, htodo, hlen, rfl, ?_, ?_, ?_, hs2, hs3⟩
  rotate_left 2
  · rw [multiThreadedFor_of_ready _ _ _ _ _ _ _ hsetup]
    exact hs1
  · have := indexSeq_unit 16777217
    simp only [Nat.cast_ofNat] at this
    simp only [htodo]
    rw [this, List.mem_map]
    exact ⟨16777216, List.mem_range.mpr (by omega), by norm_num⟩
  · have := mem_slices_indexSeq_unit 16777217 16777216 1 16777216
    simp only [Nat.cast_ofNat] at this
    simp only [htodo]
    rw [this]
    rintro ⟨k, hk, hkv⟩
    simp only [Int.toNat_one, one_mul] at hk
    omega

/-- C8: for 16777217 indices the `float` quotient loses the last bit: with one
worker `each` is 16777216 although the exact ceiling is 16777217, and with
eight workers `each` is 2097152, so `num * each` is below the number of
indices; the specification's example (10 indices, 3 workers) does give 4. -/
theorem eachOf_below_ceiling :
    eachOf 16777217 1 = 16777216 ∧ ⌈(16777217 : ℚ) / 1⌉ = 16777217 ∧
      1 * eachOf 16777217 1 < 16777217 ∧
      eachOf 16777217 8 = 2097152 ∧ ⌈(16777217 : ℚ) / 8⌉ = 2097153 ∧
      8 * eachOf 16777217 8 < 16777217 ∧
      eachOf 10 3 = 4 := by
  refine ⟨eachOf_16777217_1, ?_, ?_, eachOf_16777217_8, ?_, ?_, eachOf_10_3⟩
  · norm_num
  · rw [eachOf_16777217_1]; norm_num
  · rw [Int.ceil_eq_iff]; norm_num
  · rw [eachOf_16777217_8]; norm_num

/-- Up to `2^24` indices the binary32 chunk size is the exact ceiling. -/
theorem eachOf_eq_ceil (size : Nat) (num : Int) (hsize : size ≤ 16777216) (hnum : 1 ≤ num) :
    eachOf size num = ⌈(size : ℚ) / num⌉ := by
  obtain ⟨N, rfl⟩ := Int.eq_ofNat_of_zero_le (by omega : 0 ≤ num)
  have hN : 0 < N := by omega
  have hNq : (0 : ℚ) < N := by exact_mod_cast hN
  unfold eachOf
  simp only [Int.cast_natCast]
  rw [roundF32_natCast size hsize]
  rcases Nat.eq_zero_or_pos size with h0 | hpos
  · subst h0; simp [roundF32_zero]
  have hsq : (0 : ℚ) < size := by exact_mod_cast hpos
  rcases Nat.lt_or_ge 16777216 N with hbig | hsmall
  · -- more workers than a float can count: both quotients lie in `(0, 1]`
    have hr : (16777216 : ℚ) ≤ roundF32 (N : ℚ) := by
      obtain ⟨hb1, -⟩ := roundF32_bounds (N : ℚ) hNq
      have hlog : (24 : Int) ≤ Int.log 2 (N : ℚ) :=
        (Int.zpow_le_iff_le_log (b := 2) (by norm_num) hNq).mp (by
          norm_num
          exact hbig.le)
      have : (2 : ℚ) ^ (24 : Int) ≤ (2 : ℚ) ^ Int.log 2 (N : ℚ) :=
        zpow_le_zpow_right₀ (by norm_num) hlog
      rw [two_zpow_24] at this
      linarith
    have hrpos : (0 : ℚ) < roundF32 (N : ℚ) := by linarith
    have hsle : (size : ℚ) ≤ 16777216 := by exact_mod_cast hsize
    rw [ceil_roundF32_of_le_one _ (div_pos hsq hrpos) ((div_le_one hrpos).mpr (by linarith)),
      eq_comm, Int.ceil_eq_iff]
    have hNbig : (16777216 : ℚ) < N := by exact_mod_cast hbig
    constructor
    · simpa using div_pos hsq hNq
    · simpa using (div_le_one hNq).mpr (by linarith)
  · rw [roundF32_natCast N hsmall]
    rcases Nat.lt_or_ge size N with hlt | hge
    · have hltq : (size : ℚ) < N := by exact_mod_cast hlt
      rw [ceil_roundF32_of_le_one _ (div_pos hsq hNq) ((div_le_one hNq).mpr hltq.le),
        eq_comm, Int.ceil_eq_iff]
      constructor
      · simpa using div_pos hsq hNq
      · simpa using (div_le_one hNq).mpr hltq.le
    · exact ceil_roundF32_div size N hN hsize hge

/-- Up to `2^24` indices `num * each` covers `todo`. -/
theorem eachOf_covers (size : Nat) (num : Int) (hsize : size ≤ 16777216) (hnum : 1 ≤ num) :
    0 ≤ eachOf size num ∧ (size : Int) ≤ num * eachOf size num := by
  rw [eachOf_eq_ceil size num hsize hnum]
  have hnq : (0 : ℚ) < num := by exact_mod_cast (by omega : 0 < num)
  constructor
  · exact Int.ceil_nonneg (div_nonneg (by positivity) hnq.le)
  · have h1 : (size : ℚ) / num ≤ (⌈(size : ℚ) / num⌉ : ℚ) := Int.le_ceil _
    have h2 : (size : ℚ) ≤ num * (⌈(size : ℚ) / num⌉ : ℚ) := by
      rw [div_le_iff₀ hnq] at h1
      linarith
    exact_mod_cast h2

/-- For a range of at most `2^24` indices, `step > 0`, `num ≥ 1` and no
overflow of the loop variable: the sequential prefix terminates, `todo` is the ascending index
sequence, the slices of the units `0, ..., num - 1` concatenated in worker
order are exactly `todo`, and the run in which each unit executes at once
returns having passed exactly these values to the callback, in this order. -/
theorem slices_partition_upto_2_24 (num start end_ interval : Int) (fuel : Nat)
    (hstep : 0 < interval) (hnum : 1 ≤ num) (hstart : -2147483648 ≤ start)
    (hend : end_ + interval ≤ 2147483648) (hfuel : (end_ - start).toNat < fuel)
    (hsize : (indexSeq start end_ interval).length ≤ 16777216) :
    ∃ c s, setup fuel num start end_ interval = Setup.ready c ∧
      c.todo = indexSeq start end_ interval ∧
      (slices c).flatten = indexSeq start end_ interval ∧
      multiThreadedFor fuel num start end_ interval (syncSchedule c) = some s ∧
      s.pc = CallerPc.returned ∧
      s.log.map Prod.snd = indexSeq start end_ interval := by
  obtain ⟨h1, h2⟩ := eachOf_covers _ num hsize hnum
  have hflat := slices_flatten_of_le
    ⟨indexSeq start end_ interval, eachOf (indexSeq start end_ interval).length num, num⟩ h1 h2
  obtain ⟨s, hs1, hs2, -, -, hs3⟩ := sync_log_eq_slices
    ⟨indexSeq start end_ interval, eachOf (indexSeq start end_ interval).length num, num⟩
  have hsetup : setup fuel num start end_ interval
      = Setup.ready ⟨indexSeq start end_ interval,
          eachOf (indexSeq start end_ interval).length num, num⟩ := by
    simp only [setup, if_neg hstep.ne',
      materialise_eq start end_ interval hstep hstart hend fuel hfuel]
  refine ⟨_, s, hsetup, rfl, hflat, ?_, hs2, by rw [hs3, hflat]⟩
  rw [multiThreadedFor_of_ready _ _ _ _ _ _ _ hsetup]
  exact hs1

theorem slice_nil_todo (each num i : Int) (hi : 0 ≤ i) : slice ⟨[], each, num⟩ i = [] := by
  have h : (min ((([] : List Int).length : Nat) : Int) ((i + 1) * each) - i * each).toNat = 0 := by
    rcases le_or_lt 0 each with he | he
    · have := mul_nonneg hi he
      simp only [List.length_nil, Nat.cast_zero]
      omega
    · have : (i + 1) * each ≤ i * each := mul_le_mul_of_nonpos_right (by omega) he.le
      simp only [List.length_nil, Nat.cast_zero]
      omega
  simp only [slice, h, List.range_zero, List.map_nil]

theorem setup_of_le (fuel : Nat) (num start end_ interval : Int) (hrange : end_ ≤ start)
    (hstep : interval ≠ 0) :
    setup (fuel + 1) num start end_ interval = Setup.ready ⟨[], eachOf 0 num, num⟩ := by
  simp only [setup, if_neg hstep, materialise, todoLoop_of_le end_ interval fuel start [] hrange,
    List.length_nil]

theorem returned_stable (c : Config) (a : Action) (s t : State)
    (hpc : s.pc = CallerPc.returned) (hall : ∀ u ∈ s.units, u.completed = true)
    (h : step c a s = some t) :
    t.pc = CallerPc.returned ∧ (∀ u ∈ t.units, u.completed = true) ∧ t.log = s.log := by
  cases a with
  | caller => simp [step, callerStep, hpc] at h
  | worker k =>
    simp only [step, workerStep] at h
    split at h
    · simp at h
    · rename_i hk
      have := hall _ (List.get?_mem hk)
      simp [UnitPc.completed] at this
    · rename_i j hk
      have := hall _ (List.get?_mem hk)
      simp [UnitPc.completed] at this
    · rename_i hk
      have := hall _ (List.get?_mem hk)
      simp [UnitPc.completed] at this
    · simp only [Option.some.injEq] at h
      subst h
      refine ⟨hpc, ?_, rfl⟩
      intro u hu
      rcases List.mem_or_eq_of_mem_set hu with hmem | heq
      · exact hall u hmem
      · subst heq; rfl
    · simp at h

theorem returned_stable_runFrom (c : Config) (more : List Action) (s t : State)
    (hpc : s.pc = CallerPc.returned) (hall : ∀ u ∈ s.units, u.completed = true)
    (h : runFrom c more s = some t) : t.log = s.log := by
  induction more generalizing s with
  | nil => simp only [runFrom, Option.some.injEq] at h; subst h; rfl
  | cons a rest ih =>
    simp only [runFrom] at h
    split at h
    · simp at h
    · rename_i u hu
      obtain ⟨h1, h2, h3⟩ := returned_stable c a s u hpc hall hu
      rw [ih u h1 h2 h, h3]

theorem get?_set_completed (units : List UnitPc) (m k : Nat) (old new u : UnitPc)
    (hm : units.get? m = some old) (hk : units.get? k = some u) (hu : u.completed = true)
    (hnew : old.completed = true → new.completed = true) :
    ∃ v, (units.set m new).get? k = some v ∧ v.completed = true := by
  have hklt : k < units.length := (List.get?_eq_some.mp hk).1
  by_cases hmk : m = k
  · subst hmk
    rw [hm] at hk
    simp only [Option.some.injEq] at hk
    subst hk
    exact ⟨new, by simp [List.getElem?_set, hklt], hnew hu⟩
  · exact ⟨u, by simpa [List.getElem?_set, hmk] using hk, hu⟩

theorem completed_mono (c : Config) (a : Action) (s t : State) (h : step c a s = some t)
    (k : Nat) (u : UnitPc) (hk : s.units.get? k = some u) (hu : u.completed = true) :
    ∃ v, t.units.get? k = some v ∧ v.completed = true := by
  have hklt : k < s.units.length := (List.get?_eq_some.mp hk).1
  cases a with
  | caller =>
    simp only [step, callerStep] at h
    split at h
    · split at h <;> simp only [Option.some.injEq] at h <;> subst h
      · refine ⟨u, ?_, hu⟩
        simp only [List.get?_eq_getElem?] at hk ⊢
        rw [List.getElem?_append_left hklt]
        exact hk
      · exact ⟨u, hk, hu⟩
    · simp only [Option.some.injEq] at h; subst h; exact ⟨u, hk, hu⟩
    · split at h <;> simp only [Option.some.injEq] at h <;> subst h <;> exact ⟨u, hk, hu⟩
    · split at h
      · simp only [Option.some.injEq] at h; subst h; exact ⟨u, hk, hu⟩
      · simp at h
    · simp at h
  | worker m =>
    simp only [step, workerStep] at h
    split at h
    · simp at h
    · rename_i hm
      simp only [Option.some.injEq] at h; subst h
      exact get?_set_completed _ m k _ _ u hm hk hu (by simp [UnitPc.completed])
    · rename_i j hm
      split at h <;> simp only [Option.some.injEq] at h <;> subst h <;>
        exact get?_set_completed _ m k _ _ u hm hk hu (by simp [UnitPc.completed])
    · rename_i hm
      simp only [Option.some.injEq] at h; subst h
      exact get?_set_completed _ m k _ _ u hm hk hu (by simp [UnitPc.completed])
    · rename_i hm
      simp only [Option.some.injEq] at h; subst h
      exact get?_set_completed _ m k _ _ u hm hk hu (by simp [UnitPc.completed])
    · simp at h

theorem step_counter (c : Config) (a : Action) (s t : State) (h : step c a s = some t) :
    (t.threadsRunning = s.threadsRunning ∧ completedCount t.units = completedCount s.units) ∨
    (t.threadsRunning = s.threadsRunning - 1 ∧
      completedCount t.units = completedCount s.units + 1) := by
  cases a with
  | caller =>
    left
    simp only [step, callerStep] at h
    split at h
    · split at h <;> simp only [Option.some.injEq] at h <;> subst h
      · exact ⟨rfl, completedCount_append_notStarted _⟩
      · exact ⟨rfl, rfl⟩
    · simp only [Option.some.injEq] at h; subst h; exact ⟨rfl, rfl⟩
    · split at h <;> simp only [Option.some.injEq] at h <;> subst h <;> exact ⟨rfl, rfl⟩
    · split at h
      · simp only [Option.some.injEq] at h; subst h; exact ⟨rfl, rfl⟩
      · simp at h
    · simp at h
  | worker m =>
    simp only [step, workerStep] at h
    split at h
    · simp at h
    · rename_i hm
      simp only [Option.some.injEq] at h; subst h
      have := completedCount_set s.units m _ (UnitPc.running (s.i * c.each)) hm
      simp only [UnitPc.completed, Bool.false_eq_true, if_false, add_zero] at this
      exact Or.inl ⟨rfl, this⟩
    · rename_i j hm
      split at h <;> simp only [Option.some.injEq] at h <;> subst h
      · have := completedCount_set s.units m _ (UnitPc.running (j + 1)) hm
        simp only [UnitPc.completed, Bool.false_eq_true, if_false, add_zero] at this
        exact Or.inl ⟨rfl, this⟩
      · have := completedCount_set s.units m _ UnitPc.loopDone hm
        simp only [UnitPc.completed, Bool.false_eq_true, if_false, add_zero] at this
        exact Or.inl ⟨rfl, this⟩
    · rename_i hm
      simp only [Option.some.injEq] at h; subst h
      have := completedCount_set s.units m _ UnitPc.decremented hm
      simp only [UnitPc.completed, Bool.false_eq_true, if_false, if_true, add_zero] at this
      exact Or.inr ⟨rfl, this⟩
    · rename_i hm
      simp only [Option.some.injEq] at h; subst h
      have := completedCount_set s.units m _ UnitPc.finished hm
      simp only [UnitPc.completed, if_true, add_left_inj] at this
      exact Or.inl ⟨rfl, this⟩
    · simp at h

theorem stepsLeft_initial_nil (num : Int) :
    stepsLeft ⟨[], 0, num⟩ (initial ⟨[], 0, num⟩) = 3 + 8 * num.toNat := by
  simp only [stepsLeft, callerWeight, initial, unitBudget, List.length_nil, Int.natAbs_zero,
    Nat.mul_zero, sub_zero, List.map_nil, List.sum_nil, Bool.false_eq_true, if_false]
  omega

/-- An empty range (`end ≤ start`, step not zero) under every schedule: the
log stays empty, past the dispatch loop there are `num` units, the schedule
is no longer than `3 + 8 * num`, it is not stuck before the caller has
returned, and it can be continued to the return. -/
theorem empty_range_run (fuel : Nat) (num start end_ interval : Int)
    (hrange : end_ ≤ start) (hstep : interval ≠ 0) (schedule : List Action) (s : State)
    (h : multiThreadedFor (fuel + 1) num start end_ interval schedule = some s) :
    s.log = [] ∧
    (s.pc.pastLoop = true → s.units.length = num.toNat) ∧
    schedule.length ≤ 3 + 8 * num.toNat ∧
    (s.pc ≠ CallerPc.returned →
      ∃ a t, multiThreadedFor (fuel + 1) num start end_ interval (schedule ++ [a]) = some t) ∧
    ∃ more t, multiThreadedFor (fuel + 1) num start end_ interval (schedule ++ more) = some t ∧
      t.pc = CallerPc.returned ∧ t.units.length = num.toNat ∧ t.log = [] := by
  have hsetup : setup (fuel + 1) num start end_ interval = Setup.ready ⟨[], 0, num⟩ := by
    rw [setup_of_le fuel num start end_ interval hrange hstep, eachOf_zero]
  have hmtf : ∀ sch, multiThreadedFor (fuel + 1) num start end_ interval sch
      = run ⟨[], 0, num⟩ sch := fun sch => multiThreadedFor_of_ready _ _ _ _ _ _ sch hsetup
  rw [hmtf] at h
  have hinv := inv_run _ schedule s h
  obtain ⟨h1, h2, more, t, h3, h4⟩ := run_terminates _ schedule s h
  rw [stepsLeft_initial_nil] at h1
  refine ⟨hinv.emptyTodo rfl, hinv.past, h1, ?_, more, t, ?_, h4, ?_, ?_⟩
  · intro hpc
    obtain ⟨a, t2, ht2⟩ := h2 hpc
    exact ⟨a, t2, by rw [hmtf]; exact ht2⟩
  · rw [hmtf]; exact h3
  · exact (inv_run _ _ t h3).past (by simp [h4, CallerPc.pastLoop])
  · exact (inv_run _ _ t h3).emptyTodo rfl

/-- C2: for an empty range (`end ≤ start`) with a positive step and every
worker count, the materialisation loop ends at its first test with `todo`
empty, and the call terminates without invoking the callback: under every
schedule the log of invocations is empty, the schedule has at most
`3 + 8 * num` steps, it cannot get stuck before the caller has returned, and
it can be continued to the return.  The same holds whatever value `each` has
(for `num = 0` the C++ value is undefined): every worker's slice is empty, no
schedule logs an invocation, and every schedule is bounded, not stuck before
the return, and can be continued to the return. -/
theorem empty_range_never_invokes (fuel : Nat) (num start end_ interval : Int)
    (hrange : end_ ≤ start) (hstep : 0 < interval) :
    materialise (fuel + 1) start end_ interval = some [] ∧
    (∀ schedule s,
      multiThreadedFor (fuel + 1) num start end_ interval schedule = some s →
      s.log = [] ∧
      schedule.length ≤ 3 + 8 * num.toNat ∧
      (s.pc ≠ CallerPc.returned →
        ∃ a t, multiThreadedFor (fuel + 1) num start end_ interval (schedule ++ [a])
          = some t) ∧
      ∃ more t,
        multiThreadedFor (fuel + 1) num start end_ interval (schedule ++ more) = some t ∧
        t.pc = CallerPc.returned ∧ t.log = []) ∧
    (∃ schedule s, multiThreadedFor (fuel + 1) num start end_ interval schedule = some s ∧
      s.pc = CallerPc.returned ∧ s.log = []) ∧
    ∀ each : Int,
      (∀ i : Int, 0 ≤ i → slice ⟨[], each, num⟩ i = []) ∧
      (∀ schedule s, run ⟨[], each, num⟩ schedule = some s →
        s.log = [] ∧
        schedule.length ≤ stepsLeft ⟨[], each, num⟩ (initial ⟨[], each, num⟩) ∧
        (s.pc ≠ CallerPc.returned → ∃ a t, run ⟨[], each, num⟩ (schedule ++ [a]) = some t) ∧
        ∃ more t, run ⟨[], each, num⟩ (schedule ++ more) = some t ∧
          t.pc = CallerPc.returned ∧ t.log = []) ∧
      ∃ s, run ⟨[], each, num⟩ (syncSchedule ⟨[], each, num⟩) = some s ∧
        s.pc = CallerPc.returned ∧ s.log = [] := by
  have hsetup := setup_of_le fuel num start end_ interval hrange hstep.ne'
  have hsync : ∀ each : Int, ∃ s,
      run ⟨[], each, num⟩ (syncSchedule ⟨[], each, num⟩) = some s ∧
        s.pc = CallerPc.returned ∧ s.log = [] := by
    intro each
    obtain ⟨s, hs1, hs2, -, -, -⟩ := sync_log_eq_slices ⟨[], each, num⟩
    exact ⟨s, hs1, hs2, (inv_run _ _ s hs1).emptyTodo rfl⟩
  refine ⟨todoLoop_of_le end_ interval fuel start [] hrange, ?_, ?_, fun each => ⟨?_, ?_, ?_⟩⟩
  · intro schedule s h
    obtain ⟨h1, -, h3, h4, more, t, h5, h6, -, h7⟩ :=
      empty_range_run fuel num start end_ interval hrange hstep.ne' schedule s h
    exact ⟨h1, h3, h4, more, t, h5, h6, h7⟩
  · obtain ⟨s, hs1, hs2, hs3⟩ := hsync (eachOf 0 num)
    exact ⟨_, s, by rw [multiThreadedFor_of_ready _ _ _ _ _ _ _ hsetup]; exact hs1, hs2, hs3⟩
  · exact fun i hi => slice_nil_todo each num i hi
  · intro schedule s h
    obtain ⟨h1, h2, more, t, h3, h4⟩ := run_terminates _ schedule s h
    exact ⟨(inv_run _ schedule s h).emptyTodo rfl, h1, h2, more, t, h3, h4,
      (inv_run _ _ t h3).emptyTodo rfl⟩
  · exact hsync each

theorem empty_range_never_invokes_witness :
    materialise (0 + 1) 5 5 1 = some [] ∧
    (∀ schedule s,
      multiThreadedFor (0 + 1) 4 5 5 1 schedule = some s →
      s.log = [] ∧
      schedule.length ≤ 3 + 8 * (4 : Int).toNat ∧
      (s.pc ≠ CallerPc.returned →
        ∃ a t, multiThreadedFor (0 + 1) 4 5 5 1 (schedule ++ [a]) = some t) ∧
      ∃ more t,
        multiThreadedFor (0 + 1) 4 5 5 1 (schedule ++ more) = some t ∧
        t.pc = CallerPc.returned ∧ t.log = []) ∧
    (∃ schedule s, multiThreadedFor (0 + 1) 4 5 5 1 schedule = some s ∧
      s.pc = CallerPc.returned ∧ s.log = []) ∧
    ∀ each : Int,
      (∀ i : Int, 0 ≤ i → slice ⟨[], each, 4⟩ i = []) ∧
      (∀ schedule s, run ⟨[], each, 4⟩ schedule = some s →
        s.log = [] ∧
        schedule.length ≤ stepsLeft ⟨[], each, 4⟩ (initial ⟨[], each, 4⟩) ∧
        (s.pc ≠ CallerPc.returned → ∃ a t, run ⟨[], each, 4⟩ (schedule ++ [a]) = some t) ∧
        ∃ more t, run ⟨[], each, 4⟩ (schedule ++ more) = some t ∧
          t.pc = CallerPc.returned ∧ t.log = []) ∧
      ∃ s, run ⟨[], each, 4⟩ (syncSchedule ⟨[], each, 4⟩) = some s ∧
        s.pc = CallerPc.returned ∧ s.log = [] :=
  empty_range_never_invokes 0 4 5 5 1 (by decide) (by decide)

/-- C3 fails as stated: for the empty range `[0, 0)` with step 1 on four
CPUs the call hands four units to `callInBackground` before it returns. -/
theorem empty_range_dispatches_four :
    multiThreadedFor 1 4 0 0 1 (syncSchedule ⟨[], 0, 4⟩)
      = some { i := 4, pc := CallerPc.returned,
               units := [UnitPc.finished, UnitPc.finished, UnitPc.finished, UnitPc.finished],
               threadsRunning := 0, signalled := true, log := [] } := by
  have hsetup : setup 1 4 0 0 1 = Setup.ready ⟨[], 0, 4⟩ := by
    rw [setup_of_le 0 4 0 0 1 (by decide) (by decide), eachOf_zero]
  rw [multiThreadedFor_of_ready _ _ _ _ _ _ _ hsetup]
  decide

/-- C3 as amended: for an empty range with a positive step there is no early
return; the call hands exactly `num` units (none when `num ≤ 0`) to
`callInBackground` and then returns.  Under every schedule, every state in
which the caller has left the dispatch loop has that many units; the schedule
has at most `3 + 8 * num` steps, cannot get stuck before the caller has
returned, and can be continued to the return, where `num` units have been
dispatched.  Whatever value `each` has, each unit walks an empty slice. -/
theorem empty_range_dispatches_num (fuel : Nat) (num start end_ interval : Int)
    (hrange : end_ ≤ start) (hstep : 0 < interval) :
    (∀ schedule s, multiThreadedFor (fuel + 1) num start end_ interval schedule = some s →
      (s.pc.pastLoop = true → s.units.length = num.toNat) ∧
      schedule.length ≤ 3 + 8 * num.toNat ∧
      (s.pc ≠ CallerPc.returned →
        ∃ a t, multiThreadedFor (fuel + 1) num start end_ interval (schedule ++ [a])
          = some t) ∧
      ∃ more t,
        multiThreadedFor (fuel + 1) num start end_ interval (schedule ++ more) = some t ∧
        t.pc = CallerPc.returned ∧ t.units.length = num.toNat) ∧
    (∃ schedule s, multiThreadedFor (fuel + 1) num start end_ interval schedule = some s ∧
      s.pc = CallerPc.returned ∧ s.units.length = num.toNat) ∧
    ∀ each : Int,
      (∀ schedule s, run ⟨[], each, num⟩ schedule = some s →
        (s.pc.pastLoop = true → s.units.length = num.toNat) ∧
        schedule.length ≤ stepsLeft ⟨[], each, num⟩ (initial ⟨[], each, num⟩) ∧
        (s.pc ≠ CallerPc.returned → ∃ a t, run ⟨[], each, num⟩ (schedule ++ [a]) = some t) ∧
        ∃ more t, run ⟨[], each, num⟩ (schedule ++ more) = some t ∧
          t.pc = CallerPc.returned ∧ t.units.length = num.toNat) ∧
      (∀ i : Int, 0 ≤ i → slice ⟨[], each, num⟩ i = []) := by
  have hsetup := setup_of_le fuel num start end_ interval hrange hstep.ne'
  refine ⟨?_, ?_, fun each => ⟨?_, ?_⟩⟩
  · intro schedule s h
    obtain ⟨-, h2, h3, h4, more, t, h5, h6, h7, -⟩ :=
      empty_range_run fuel num start end_ interval hrange hstep.ne' schedule s h
    exact ⟨h2, h3, h4, more, t, h5, h6, h7⟩
  · obtain ⟨s, hs1, hs2, hs3, -, -⟩ := sync_log_eq_slices ⟨[], eachOf 0 num, num⟩
    exact ⟨_, s, by rw [multiThreadedFor_of_ready _ _ _ _ _ _ _ hsetup]; exact hs1, hs2, hs3⟩
  · intro schedule s h
    obtain ⟨h1, h2, more, t, h3, h4⟩ := run_terminates _ schedule s h
    exact ⟨(inv_run _ schedule s h).past, h1, h2, more, t, h3, h4,
      (inv_run _ _ t h3).past (by simp [h4, CallerPc.pastLoop])⟩
  · exact fun i hi => slice_nil_todo each num i hi

theorem empty_range_dispatches_num_witness :
    (∀ schedule s, multiThreadedFor (0 + 1) 4 0 0 1 schedule = some s →
      (s.pc.pastLoop = true → s.units.length = (4 : Int).toNat) ∧
      schedule.length ≤ 3 + 8 * (4 : Int).toNat ∧
      (s.pc ≠ CallerPc.returned →
        ∃ a t, multiThreadedFor (0 + 1) 4 0 0 1 (schedule ++ [a]) = some t) ∧
      ∃ more t,
        multiThreadedFor (0 + 1) 4 0 0 1 (schedule ++ more) = some t ∧
        t.pc = CallerPc.returned ∧ t.units.length = (4 : Int).toNat) ∧
    (∃ schedule s, multiThreadedFor (0 + 1) 4 0 0 1 schedule = some s ∧
      s.pc = CallerPc.returned ∧ s.units.length = (4 : Int).toNat) ∧
    ∀ each : Int,
      (∀ schedule s, run ⟨[], each, 4⟩ schedule = some s →
        (s.pc.pastLoop = true → s.units.length = (4 : Int).toNat) ∧
        schedule.length ≤ stepsLeft ⟨[], each, 4⟩ (initial ⟨[], each, 4⟩) ∧
        (s.pc ≠ CallerPc.returned → ∃ a t, run ⟨[], each, 4⟩ (schedule ++ [a]) = some t) ∧
        ∃ more t, run ⟨[], each, 4⟩ (schedule ++ more) = some t ∧
          t.pc = CallerPc.returned ∧ t.units.length = (4 : Int).toNat) ∧
      (∀ i : Int, 0 ≤ i → slice ⟨[], each, 4⟩ i = []) :=
  empty_range_dispatches_num 0 4 0 0 1 (by decide) (by decide)

/-- C4 fails as stated: nothing rejects a negative step.  With step `-1` on
the range `[0, 0)` and one CPU the call hands one unit to `callInBackground`
and returns normally.  With step `-2^30` on the range `[0, 1)` and one CPU
the loop variable runs `0, -2^30, -2^31` and then wraps to `2^30`, which ends
the loop: `todo` has three elements and the callback is invoked for each. -/
theorem negative_step_returns_normally :
    multiThreadedFor 1 1 0 0 (-1) (syncSchedule ⟨[], 0, 1⟩)
      = some { i := 1, pc := CallerPc.returned, units := [UnitPc.finished],
               threadsRunning := 0, signalled := true, log := [] } ∧
    materialise 4 0 1 (-1073741824) = some [0, -1073741824, -2147483648] ∧
    multiThreadedFor 4 1 0 1 (-1073741824)
        (syncSchedule ⟨[0, -1073741824, -2147483648], 3, 1⟩)
      = some { i := 1, pc := CallerPc.returned, units := [UnitPc.finished],
               threadsRunning := 0, signalled := true,
               log := [(0, 0), (0, -1073741824), (0, -2147483648)] } := by
  have hsetup : setup 1 1 0 0 (-1) = Setup.ready ⟨[], 0, 1⟩ := by
    rw [setup_of_le 0 1 0 0 (-1) (by decide) (by decide), eachOf_zero]
  have hm : materialise 4 0 1 (-1073741824) = some [0, -1073741824, -2147483648] := by
    decide
  have heach : eachOf 3 1 = 3 := by
    rw [eachOf_eq_ceil 3 1 (by norm_num) (by norm_num)]
    norm_num
  have hsetup2 : setup 4 1 0 1 (-1073741824)
      = Setup.ready ⟨[0, -1073741824, -2147483648], 3, 1⟩ := by
    simp only [setup, hm, List.length_cons, List.length_nil]
    simpa using heach
  refine ⟨?_, hm, ?_⟩
  · rw [multiThreadedFor_of_ready _ _ _ _ _ _ _ hsetup]
    decide
  · rw [multiThreadedFor_of_ready _ _ _ _ _ _ _ hsetup2]
    decide

/-- C4 as amended: there is no check of the step.  With step `0` the capacity
computation `(end - start) / interval` divides by zero before anything else
happens: no unit is dispatched and the callback is not invoked.  With a
negative step and `end ≤ start` the call proceeds as for an empty range: under
every schedule the callback is never invoked, past the dispatch loop `num`
units have been handed to `callInBackground`, the schedule has at most
`3 + 8 * num` steps, cannot get stuck before the caller has returned, and can
be continued to the return.  (A negative step with `start < end` drives the
loop variable into signed overflow; nothing is stated about it.) -/
theorem nonpositive_step_behaviour (num start end_ interval : Int) :
    (interval = 0 → ∀ fuel,
      setup fuel num start end_ interval = Setup.divisionByZero ∧
      ∀ schedule, multiThreadedFor fuel num start end_ interval schedule = none) ∧
    (interval < 0 → end_ ≤ start → ∀ fuel,
      (∀ schedule s, multiThreadedFor (fuel + 1) num start end_ interval schedule = some s →
        s.log = [] ∧
        (s.pc.pastLoop = true → s.units.length = num.toNat) ∧
        schedule.length ≤ 3 + 8 * num.toNat ∧
        (s.pc ≠ CallerPc.returned →
          ∃ a t, multiThreadedFor (fuel + 1) num start end_ interval (schedule ++ [a])
            = some t) ∧
        ∃ more t,
          multiThreadedFor (fuel + 1) num start end_ interval (schedule ++ more) = some t ∧
          t.pc = CallerPc.returned ∧ t.units.length = num.toNat ∧ t.log = []) ∧
      ∃ schedule s, multiThreadedFor (fuel + 1) num start end_ interval schedule = some s ∧
        s.pc = CallerPc.returned ∧ s.units.length = num.toNat ∧ s.log = []) := by
  constructor
  · intro h0 fuel
    have hs : setup fuel num start end_ interval = Setup.divisionByZero := by
      simp [setup, h0]
    exact ⟨hs, fun schedule => by simp only [multiThreadedFor, hs]⟩
  · intro hneg hrange fuel
    have hsetup := setup_of_le fuel num start end_ interval hrange hneg.ne
    constructor
    · intro schedule s h
      exact empty_range_run fuel num start end_ interval hrange hneg.ne schedule s h
    · obtain ⟨s, hs1, hs2, hs3, -, -⟩ := sync_log_eq_slices ⟨[], eachOf 0 num, num⟩
      exact ⟨_, s, by rw [multiThreadedFor_of_ready _ _ _ _ _ _ _ hsetup]; exact hs1, hs2, hs3,
        (inv_run _ _ s hs1).emptyTodo rfl⟩

theorem nonpositive_step_behaviour_witness :
    ((-1 : Int) = 0 → ∀ fuel,
      setup fuel 2 3 3 (-1) = Setup.divisionByZero ∧
      ∀ schedule, multiThreadedFor fuel 2 3 3 (-1) schedule = none) ∧
    ((-1 : Int) < 0 → (3 : Int) ≤ 3 → ∀ fuel,
      (∀ schedule s, multiThreadedFor (fuel + 1) 2 3 3 (-1) schedule = some s →
        s.log = [] ∧
        (s.pc.pastLoop = true → s.units.length = (2 : Int).toNat) ∧
        schedule.length ≤ 3 + 8 * (2 : Int).toNat ∧
        (s.pc ≠ CallerPc.returned →
          ∃ a t, multiThreadedFor (fuel + 1) 2 3 3 (-1) (schedule ++ [a]) = some t) ∧
        ∃ more t,
          multiThreadedFor (fuel + 1) 2 3 3 (-1) (schedule ++ more) = some t ∧
          t.pc = CallerPc.returned ∧ t.units.length = (2 : Int).toNat ∧ t.log = []) ∧
      ∃ schedule s, multiThreadedFor (fuel + 1) 2 3 3 (-1) schedule = some s ∧
        s.pc = CallerPc.returned ∧ s.units.length = (2 : Int).toNat ∧ s.log = []) :=
  nonpositive_step_behaviour 2 3 3 (-1)

theorem multiThreadedFor_some (fuel : Nat) (num start end_ interval : Int)
    (schedule : List Action) (s : State)
    (h : multiThreadedFor fuel num start end_ interval schedule = some s) :
    ∃ c, setup fuel num start end_ interval = Setup.ready c ∧ c.num = num ∧
      run c schedule = some s := by
  unfold multiThreadedFor at h
  split at h
  · rename_i c hc
    refine ⟨c, hc, ?_, h⟩
    unfold setup at hc
    split at hc
    · simp at hc
    · split at hc
      · simp at hc
      · simp only [Setup.ready.injEq] at hc
        rw [← hc]
  · simp at h

theorem setup_of_pos (fuel : Nat) (num start end_ interval : Int) (hstep : 0 < interval)
    (hstart : -2147483648 ≤ start) (hend : end_ + interval ≤ 2147483648)
    (hfuel : (end_ - start).toNat < fuel) :
    setup fuel num start end_ interval
      = Setup.ready ⟨indexSeq start end_ interval,
          eachOf (indexSeq start end_ interval).length num, num⟩ := by
  simp only [setup, if_neg hstep.ne',
    materialise_eq start end_ interval hstep hstart hend fuel hfuel]

theorem run_returned (c : Config) (schedule : List Action) (s : State)
    (hrun : run c schedule = some s) (hret : s.pc = CallerPc.returned) :
    s.units.length = c.num.toNat ∧
    (∀ u ∈ s.units, u = UnitPc.decremented ∨ u = UnitPc.finished) ∧
    completedCount s.units = s.units.length ∧
    s.threadsRunning ≤ 0 ∧
    ∀ more t, run c (schedule ++ more) = some t → t.log = s.log := by
  have hinv := inv_run c schedule s hrun
  have hall := hinv.returned hret
  have hcount : completedCount s.units = s.units.length := List.countP_eq_length.mpr hall
  have hlen := hinv.past (by simp [hret, CallerPc.pastLoop])
  refine ⟨hlen, ?_, hcount, ?_, ?_⟩
  · intro u hu
    have := hall u hu
    cases u <;> simp [UnitPc.completed] at this ⊢
  · have := hinv.counter
    omega
  · intro more t h
    unfold run at h hrun
    rw [runFrom_append, hrun] at h
    exact returned_stable_runFrom c more s t hret hall h

/-- C5: in every state reached by a call in which the caller has left the wait
loop and returned, all `num` units have been dispatched and each of them has
left its callback loop and executed its decrement (the counter was read as
`≤ 0`); however the schedule continues, the callback is invoked no more. -/
theorem returned_only_after_all_completed (fuel : Nat) (num start end_ interval : Int)
    (schedule : List Action) (s : State)
    (hrun : multiThreadedFor fuel num start end_ interval schedule = some s)
    (hret : s.pc = CallerPc.returned) :
    s.units.length = num.toNat ∧
    (∀ u ∈ s.units, u = UnitPc.decremented ∨ u = UnitPc.finished) ∧
    completedCount s.units = s.units.length ∧
    s.threadsRunning ≤ 0 ∧
    ∀ more t, multiThreadedFor fuel num start end_ interval (schedule ++ more) = some t →
      t.log = s.log := by
  obtain ⟨c, hc, hnum, hs⟩ := multiThreadedFor_some _ _ _ _ _ _ _ hrun
  obtain ⟨h1, h2, h3, h4, h5⟩ := run_returned c schedule s hs hret
  refine ⟨by rw [h1, hnum], h2, h3, h4, ?_⟩
  intro more t ht
  rw [multiThreadedFor_of_ready _ _ _ _ _ _ _ hc] at ht
  exact h5 more t ht

theorem returned_only_after_all_completed_witness :
    ([UnitPc.finished, UnitPc.finished] : List UnitPc).length = (2 : Int).toNat ∧
    (∀ u ∈ [UnitPc.finished, UnitPc.finished], u = UnitPc.decremented ∨ u = UnitPc.finished) ∧
    completedCount [UnitPc.finished, UnitPc.finished]
      = ([UnitPc.finished, UnitPc.finished] : List UnitPc).length ∧
    (0 : Int) ≤ 0 ∧
    ∀ more t,
      multiThreadedFor 3 2 0 2 1 (syncSchedule ⟨[0, 1], 1, 2⟩ ++ more) = some t →
        t.log = [(0, 0), (1, 1)] :=
  returned_only_after_all_completed 3 2 0 2 1 (syncSchedule ⟨[0, 1], 1, 2⟩)
    { i := 2, pc := CallerPc.returned, units := [UnitPc.finished, UnitPc.finished],
      threadsRunning := 0, signalled := true, log := [(0, 0), (1, 1)] }
    (by
      have hm : materialise 3 0 2 1 = some [0, 1] := by decide
      have hsetup : setup 3 2 0 2 1 = Setup.ready ⟨[0, 1], 1, 2⟩ := by
        simp only [setup, hm, List.length_cons, List.length_nil]
        simpa using eachOf_2_2
      rw [multiThreadedFor_of_ready _ _ _ _ _ _ _ hsetup]
      decide)
    rfl

theorem run_nonpositive_num (todo : List Int) (each num : Int) (hnum : num ≤ 0) :
    (∀ schedule s, run ⟨todo, each, num⟩ schedule = some s → s.units = [] ∧ s.log = []) ∧
    run ⟨todo, each, num⟩ [Action.caller, Action.caller]
      = some { i := 0, pc := CallerPc.returned, units := [], threadsRunning := num,
               signalled := false, log := [] } := by
  constructor
  · intro schedule s h
    have hinv := inv_run _ schedule s h
    have hlen : s.units.length = 0 := by
      have h1 := hinv.forTest
      have h2 := hinv.increment
      have h3 := hinv.past
      have h0 := hinv.i_nonneg
      simp only at h1 h2 h3
      cases hpc : s.pc
      · have := h1 hpc; omega
      · have := h2 hpc; omega
      · have := h3 (by simp [hpc, CallerPc.pastLoop]); omega
      · have := h3 (by simp [hpc, CallerPc.pastLoop]); omega
      · have := h3 (by simp [hpc, CallerPc.pastLoop]); omega
    refine ⟨List.length_eq_zero.mp hlen, ?_⟩
    cases hlog : s.log with
    | nil => rfl
    | cons e rest =>
      have := hinv.logUnits e (by simp [hlog])
      omega
  · have h1 : ¬ (0 < num) := by omega
    simp [run, runFrom, step, callerStep, initial, h1]

/-- C6 fails as stated: with a reported CPU count of 0 (whatever `each` is)
or of -1, the call on the range `[0, 1)` returns after two steps of the
caller with no unit dispatched and the callback not invoked. -/
theorem zero_cpus_dispatches_nothing :
    (∀ each : Int, run ⟨[0], each, 0⟩ [Action.caller, Action.caller]
      = some { i := 0, pc := CallerPc.returned, units := [], threadsRunning := 0,
               signalled := false, log := [] }) ∧
    multiThreadedFor 2 0 0 1 1 [Action.caller, Action.caller]
      = some { i := 0, pc := CallerPc.returned, units := [], threadsRunning := 0,
               signalled := false, log := [] } ∧
    multiThreadedFor 2 (-1) 0 1 1 [Action.caller, Action.caller]
      = some { i := 0, pc := CallerPc.returned, units := [], threadsRunning := -1,
               signalled := false, log := [] } := by
  have hm : materialise 2 0 1 1 = some [0] := by decide
  refine ⟨fun each => (run_nonpositive_num [0] each 0 le_rfl).2, ?_, ?_⟩
  · simp only [multiThreadedFor, setup, hm]
    exact (run_nonpositive_num [0] _ 0 le_rfl).2
  · simp only [multiThreadedFor, setup, hm]
    exact (run_nonpositive_num [0] _ (-1) (by decide)).2

/-- C6 as amended: the worker count is not clamped.  When the reported CPU
count is zero or negative, no schedule of a call dispatches a unit or invokes
the callback, and for `start < end`, `step > 0` (the loop variable staying
within `int`), as whenever `todo` gets filled, the call returns after two
steps of the caller.  This does not depend on the value of `each` (undefined
in C++ for `num = 0`): it holds for every `todo` and every `each`. -/
theorem nonpositive_cpus_dispatch_nothing (num start end_ interval : Int) (hnum : num ≤ 0) :
    (∀ fuel schedule s, multiThreadedFor fuel num start end_ interval schedule = some s →
      s.units = [] ∧ s.log = []) ∧
    (start < end_ → 0 < interval → -2147483648 ≤ start → end_ + interval ≤ 2147483648 →
      ∀ fuel, (end_ - start).toNat < fuel →
      multiThreadedFor fuel num start end_ interval [Action.caller, Action.caller]
        = some { i := 0, pc := CallerPc.returned, units := [], threadsRunning := num,
                 signalled := false, log := [] }) ∧
    (∀ fuel c, setup fuel num start end_ interval = Setup.ready c →
      multiThreadedFor fuel num start end_ interval [Action.caller, Action.caller]
        = some { i := 0, pc := CallerPc.returned, units := [], threadsRunning := num,
                 signalled := false, log := [] }) ∧
    ∀ (todo : List Int) (each : Int),
      (∀ schedule s, run ⟨todo, each, num⟩ schedule = some s → s.units = [] ∧ s.log = []) ∧
      run ⟨todo, each, num⟩ [Action.caller, Action.caller]
        = some { i := 0, pc := CallerPc.returned, units := [], threadsRunning := num,
                 signalled := false, log := [] } := by
  have hready : ∀ fuel c, setup fuel num start end_ interval = Setup.ready c →
      multiThreadedFor fuel num start end_ interval [Action.caller, Action.caller]
        = some { i := 0, pc := CallerPc.returned, units := [], threadsRunning := num,
                 signalled := false, log := [] } := by
    intro fuel c hc
    have hcnum : c.num = num := by
      unfold setup at hc
      split at hc
      · simp at hc
      · split at hc
        · simp at hc
        · simp only [Setup.ready.injEq] at hc
          rw [← hc]
    rw [multiThreadedFor_of_ready _ _ _ _ _ _ _ hc]
    obtain ⟨todo, each, n⟩ := c
    simp only at hcnum
    subst hcnum
    exact (run_nonpositive_num todo each _ hnum).2
  refine ⟨?_, ?_, hready, fun todo each => run_nonpositive_num todo each num hnum⟩
  · intro fuel schedule s h
    obtain ⟨c, -, hcnum, hs⟩ := multiThreadedFor_some _ _ _ _ _ _ _ h
    obtain ⟨todo, each, n⟩ := c
    simp only at hcnum
    subst hcnum
    exact (run_nonpositive_num todo each _ hnum).1 schedule s hs
  · intro _ hstep hstart hend fuel hfuel
    exact hready fuel _ (setup_of_pos fuel num start end_ interval hstep hstart hend hfuel)

theorem nonpositive_cpus_dispatch_nothing_witness :
    (∀ fuel schedule s, multiThreadedFor fuel 0 0 3 1 schedule = some s →
      s.units = [] ∧ s.log = []) ∧
    ((0 : Int) < 3 → (0 : Int) < 1 → (-2147483648 : Int) ≤ 0 → (3 : Int) + 1 ≤ 2147483648 →
      ∀ fuel, ((3 : Int) - 0).toNat < fuel →
      multiThreadedFor fuel 0 0 3 1 [Action.caller, Action.caller]
        = some { i := 0, pc := CallerPc.returned, units := [], threadsRunning := 0,
                 signalled := false, log := [] }) ∧
    (∀ fuel c, setup fuel 0 0 3 1 = Setup.ready c →
      multiThreadedFor fuel 0 0 3 1 [Action.caller, Action.caller]
        = some { i := 0, pc := CallerPc.returned, units := [], threadsRunning := 0,
                 signalled := false, log := [] }) ∧
    ∀ (todo : List Int) (each : Int),
      (∀ schedule s, run ⟨todo, each, 0⟩ schedule = some s → s.units = [] ∧ s.log = []) ∧
      run ⟨todo, each, 0⟩ [Action.caller, Action.caller]
        = some { i := 0, pc := CallerPc.returned, units := [], threadsRunning := 0,
                 signalled := false, log := [] } :=
  nonpositive_cpus_dispatch_nothing 0 0 3 1 (by decide)

/-- C7: on the range `[0, 2)` with two CPUs the slices are `[0]` and `[1]`,
but when the dispatcher starts unit 0 only after the caller has executed
`i++`, the unit reads `i = 1` through its reference capture and walks slice 1:
index 1 is passed to the callback twice and index 0 never. -/
theorem late_start_reads_advanced_i :
    setup 3 2 0 2 1 = Setup.ready ⟨[0, 1], 1, 2⟩ ∧
    slices ⟨[0, 1], 1, 2⟩ = [[0], [1]] ∧
    multiThreadedFor 3 2 0 2 1
        [Action.caller, Action.caller,
         Action.worker 0, Action.worker 0, Action.worker 0, Action.worker 0, Action.worker 0,
         Action.caller,
         Action.worker 1, Action.worker 1, Action.worker 1, Action.worker 1, Action.worker 1,
         Action.caller, Action.caller, Action.caller]
      = some { i := 2, pc := CallerPc.returned, units := [UnitPc.finished, UnitPc.finished],
               threadsRunning := 0, signalled := true, log := [(0, 1), (1, 1)] } := by
  have hm : materialise 3 0 2 1 = some [0, 1] := by decide
  have hsetup : setup 3 2 0 2 1 = Setup.ready ⟨[0, 1], 1, 2⟩ := by
    simp only [setup, hm, List.length_cons, List.length_nil]
    simpa using eachOf_2_2
  refine ⟨hsetup, by decide, ?_⟩
  rw [multiThreadedFor_of_ready _ _ _ _ _ _ _ hsetup]
  decide

theorem run_counter (c : Config) (hnum : 1 ≤ c.num) (schedule : List Action) (s : State)
    (hrun : run c schedule = some s) :
    s.threadsRunning = c.num - completedCount s.units ∧
    0 ≤ s.threadsRunning ∧
    s.units.length ≤ c.num.toNat ∧
    (s.pc.pastLoop = true → s.units.length = c.num.toNat) ∧
    (s.threadsRunning = 0 ↔
      s.units.length = c.num.toNat ∧ ∀ u ∈ s.units, u.completed = true) := by
  have hinv := inv_run c schedule s hrun
  have hcnt := hinv.counter
  have hle := completedCount_le_length s.units
  have hlen : s.units.length ≤ c.num.toNat := by
    have h1 := hinv.forTest
    have h2 := hinv.increment
    have h3 := hinv.past
    cases hpc : s.pc
    · have := h1 hpc; omega
    · have := h2 hpc; omega
    · have := h3 (by simp [hpc, CallerPc.pastLoop]); omega
    · have := h3 (by simp [hpc, CallerPc.pastLoop]); omega
    · have := h3 (by simp [hpc, CallerPc.pastLoop]); omega
  refine ⟨hcnt, by omega, hlen, hinv.past, ?_⟩
  constructor
  · intro h0
    have hall : completedCount s.units = s.units.length := by omega
    exact ⟨by omega, List.countP_eq_length.mp hall⟩
  · rintro ⟨h1, h2⟩
    have hall : completedCount s.units = s.units.length := List.countP_eq_length.mpr h2
    omega

theorem run_snoc (c : Config) (schedule : List Action) (a : Action) (s t : State)
    (hs : run c schedule = some s) (ht : run c (schedule ++ [a]) = some t) :
    step c a s = some t := by
  unfold run at hs ht
  rw [runFrom_append, hs] at ht
  simp only [Option.some_bind, runFrom] at ht
  cases h : step c a s with
  | none => simp [h] at ht
  | some u => simpa [h] using ht

/-- C9: with `num ≥ 1` the counter `threadsRunning` starts at `num`; in every
state reached by a call it equals `num` minus the number of units that have
executed their decrement, it is never negative, and it is zero exactly when
all `num` units have been dispatched and have completed.  Each further step
leaves the counter alone or is the decrement of one unit that thereby becomes
completed, and a completed unit stays completed, so each unit decrements
once.  Exactly `num` units are dispatched, whether their slices are empty or
not: every state past the dispatch loop has `num` units, and some schedule
returns with `num` units and the counter at zero.  For the range `[0, 2)` on
8 CPUs: `each = 1`, two slices are non-empty, eight units are dispatched. -/
theorem threadsRunning_counts_completed (fuel : Nat) (num start end_ interval : Int)
    (hnum : 1 ≤ num) (schedule : List Action) (s : State)
    (hrun : multiThreadedFor fuel num start end_ interval schedule = some s) :
    (∀ t, multiThreadedFor fuel num start end_ interval [] = some t → t.threadsRunning = num) ∧
    s.threadsRunning = num - completedCount s.units ∧
    0 ≤ s.threadsRunning ∧
    s.units.length ≤ num.toNat ∧
    (s.pc.pastLoop = true → s.units.length = num.toNat) ∧
    (s.threadsRunning = 0 ↔
      s.units.length = num.toNat ∧ ∀ u ∈ s.units, u.completed = true) ∧
    (∀ a t, multiThreadedFor fuel num start end_ interval (schedule ++ [a]) = some t →
      (t.threadsRunning = s.threadsRunning ∧
        completedCount t.units = completedCount s.units) ∨
      (t.threadsRunning = s.threadsRunning - 1 ∧
        completedCount t.units = completedCount s.units + 1)) ∧
    (∀ a t, multiThreadedFor fuel num start end_ interval (schedule ++ [a]) = some t →
      ∀ k u, s.units.get? k = some u → u.completed = true →
        ∃ v, t.units.get? k = some v ∧ v.completed = true) ∧
    (∃ schedule2 t, multiThreadedFor fuel num start end_ interval schedule2 = some t ∧
      t.pc = CallerPc.returned ∧ t.units.length = num.toNat ∧ t.threadsRunning = 0) ∧
    slices ⟨[0, 1], 1, 8⟩ = [[0], [1], [], [], [], [], [], []] ∧
    multiThreadedFor 3 8 0 2 1 (syncSchedule ⟨[0, 1], 1, 8⟩)
      = some { i := 8, pc := CallerPc.returned, units := List.replicate 8 UnitPc.finished,
               threadsRunning := 0, signalled := true, log := [(0, 0), (1, 1)] } := by
  obtain ⟨c, hc, hcnum, hs⟩ := multiThreadedFor_some _ _ _ _ _ _ _ hrun
  subst hcnum
  obtain ⟨h1, h2, h3, h4, h5⟩ := run_counter c hnum schedule s hs
  refine ⟨?_, h1, h2, h3, h4, h5, ?_, ?_, ?_, by decide, ?_⟩
  · intro t ht
    rw [multiThreadedFor_of_ready _ _ _ _ _ _ _ hc] at ht
    simp only [run, runFrom, Option.some.injEq] at ht
    rw [← ht]
    rfl
  · intro a t ht
    rw [multiThreadedFor_of_ready _ _ _ _ _ _ _ hc] at ht
    exact step_counter c a s t (run_snoc c schedule a s t hs ht)
  · intro a t ht k u hk hu
    rw [multiThreadedFor_of_ready _ _ _ _ _ _ _ hc] at ht
    exact completed_mono c a s t (run_snoc c schedule a s t hs ht) k u hk hu
  · obtain ⟨t, ht1, ht2, ht3, ht4, -⟩ := sync_log_eq_slices c
    refine ⟨syncSchedule c, t, ?_, ht2, ht3, by omega⟩
    rw [multiThreadedFor_of_ready _ _ _ _ _ _ _ hc]
    exact ht1
  · have hm : materialise 3 0 2 1 = some [0, 1] := by decide
    have hsetup : setup 3 8 0 2 1 = Setup.ready ⟨[0, 1], 1, 8⟩ := by
      simp only [setup, hm, List.length_cons, List.length_nil]
      simpa using eachOf_2_8
    rw [multiThreadedFor_of_ready _ _ _ _ _ _ _ hsetup]
    decide

theorem threadsRunning_counts_completed_witness :
    (∀ t, multiThreadedFor 3 8 0 2 1 [] = some t → t.threadsRunning = 8) ∧
    (7 : Int) = 8 - completedCount [UnitPc.decremented] ∧
    (0 : Int) ≤ 7 ∧
    [UnitPc.decremented].length ≤ (8 : Int).toNat ∧
    (CallerPc.increment.pastLoop = true → [UnitPc.decremented].length = (8 : Int).toNat) ∧
    ((7 : Int) = 0 ↔
      [UnitPc.decremented].length = (8 : Int).toNat ∧
        ∀ u ∈ [UnitPc.decremented], u.completed = true) ∧
    (∀ a t,
      multiThreadedFor 3 8 0 2 1
          ([Action.caller, Action.worker 0, Action.worker 0, Action.worker 0,
            Action.worker 0] ++ [a]) = some t →
      (t.threadsRunning = 7 ∧ completedCount t.units = completedCount [UnitPc.decremented]) ∨
      (t.threadsRunning = 7 - 1 ∧
        completedCount t.units = completedCount [UnitPc.decremented] + 1)) ∧
    (∀ a t,
      multiThreadedFor 3 8 0 2 1
          ([Action.caller, Action.worker 0, Action.worker 0, Action.worker 0,
            Action.worker 0] ++ [a]) = some t →
      ∀ k u, [UnitPc.decremented].get? k = some u → u.completed = true →
        ∃ v, t.units.get? k = some v ∧ v.completed = true) ∧
    (∃ schedule2 t, multiThreadedFor 3 8 0 2 1 schedule2 = some t ∧
      t.pc = CallerPc.returned ∧ t.units.length = (8 : Int).toNat ∧ t.threadsRunning = 0) ∧
    slices ⟨[0, 1], 1, 8⟩ = [[0], [1], [], [], [], [], [], []] ∧
    multiThreadedFor 3 8 0 2 1 (syncSchedule ⟨[0, 1], 1, 8⟩)
      = some { i := 8, pc := CallerPc.returned, units := List.replicate 8 UnitPc.finished,
               threadsRunning := 0, signalled := true, log := [(0, 0), (1, 1)] } :=
  threadsRunning_counts_completed 3 8 0 2 1 (by decide)
    [Action.caller, Action.worker 0, Action.worker 0, Action.worker 0, Action.worker 0]
    { i := 0, pc := CallerPc.increment, units := [UnitPc.decremented],
      threadsRunning := 7, signalled := false, log := [(0, 0)] }
    (by
      have hm : materialise 3 0 2 1 = some [0, 1] := by decide
      have hsetup : setup 3 8 0 2 1 = Setup.ready ⟨[0, 1], 1, 8⟩ := by
        simp only [setup, hm, List.length_cons, List.length_nil]
        simpa using eachOf_2_8
      rw [multiThreadedFor_of_ready _ _ _ _ _ _ _ hsetup]
      decide)

/-- C10: with the programs `Default` and `A` and nothing selected, the
presets list is `["A"]`, so row 0 is looked up as the program `A` and shown in
the dialog; confirming with the unused name `C` rewrites `programs[0]`, which
is `Default`, and leaves `A` as it was. -/
theorem editPreset_edits_programs_row (J : Juce)
    (hsort : J.sortIgnoreCase ["A"] = ["A"])
    (hlegal : J.createLegalFileName "C" = "C") :
    (refresh J twoPrograms).currentPresets = ["A"] ∧
    stringAt (refresh J twoPrograms).currentPresets 0 = "A" ∧
    getProgram twoPrograms.programs "A" = some ⟨"A", "", []⟩ ∧
    editPreset J (refresh J twoPrograms) 0 ⟨1, "C", "", ""⟩
      = some [⟨"C", J.createLegalFileName "", J.fromTokens (J.createLegalFileName "")⟩,
              ⟨"A", "", []⟩] := by
  have h1 : (refresh J twoPrograms).currentPresets = ["A"] := by
    simp [refresh, twoPrograms, refreshStep, addIfNotAlreadyThere, hsort]
  have h2 : (refresh J twoPrograms).programs = twoPrograms.programs := rfl
  refine ⟨h1, ?_, ?_, ?_⟩
  · rw [h1]; simp [stringAt]
  · simp [getProgram, twoPrograms]
  · simp only [editPreset, h1, h2]
    simp [stringAt, getProgram, hasProgram, twoPrograms, hlegal]

theorem editPreset_edits_programs_row_witness :
    (refresh ⟨id, id, fun _ => []⟩ twoPrograms).currentPresets = ["A"] ∧
    stringAt (refresh ⟨id, id, fun _ => []⟩ twoPrograms).currentPresets 0 = "A" ∧
    getProgram twoPrograms.programs "A" = some ⟨"A", "", []⟩ ∧
    editPreset ⟨id, id, fun _ => []⟩ (refresh ⟨id, id, fun _ => []⟩ twoPrograms) 0
        ⟨1, "C", "", ""⟩
      = some [⟨"C", "", []⟩, ⟨"A", "", []⟩] :=
  editPreset_edits_programs_row ⟨id, id, fun _ => []⟩ rfl rfl

end Gin
